import Mathlib

/-!
Verification development for the Smart File Chunker (`src/app.py`).

The program is a single-threaded pipeline: uploaded files are written into an
input tree, each file is classified against a byte threshold, oversized files
are split into numbered single-entry ZIP parts, normal files are greedily
grouped into ZIPs bounded by the threshold, and everything is repackaged into
one top-level archive with a `Rejoinable/` and an `Independent/` section plus
a README entry.

Shallow embedding conventions:
- file bytes are `List Nat`;
- the output directory is a write-log of named files (`Disk`); a lookup
  returns the most recent write, matching filesystem overwrite semantics;
- a ZIP file written by the program is a list of named entries whose payloads
  are raw byte strings; the byte-level ZIP container serialization is
  abstracted by `DiskFile.bytes`;
- the `while chunk := f.read(max_size)` loop of `split_large_file` is encoded
  with an explicit fuel argument equal to the number of unread bytes, which
  bounds the number of loop iterations; `splitLoop_eq` recovers the intended
  unfolding equation.
-/

abbrev Bytes := List Nat

/-- A file stored on disk: either raw bytes, or a ZIP archive holding named
entries (every payload the program writes into a ZIP is a raw byte string). -/
inductive DiskFile where
  | raw (data : Bytes)
  | zip (entries : List (String × Bytes))
deriving DecidableEq, Repr

/-- The entries of a ZIP file; a raw file has none. -/
def DiskFile.entriesOf : DiskFile → List (String × Bytes)
  | DiskFile.raw _ => []
  | DiskFile.zip es => es

/-- Byte content of a disk file.  The exact ZIP container serialization is
abstracted; only its role as an opaque byte payload matters. -/
def DiskFile.bytes : DiskFile → Bytes
  | DiskFile.raw b => b
  | DiskFile.zip es => es.flatMap (fun e => e.1.data.map Char.toNat ++ e.2)

/-- The output directory, as a log of writes: the head of the list is the
most recent write. -/
abbrev Disk := List (String × DiskFile)

/-- Writing a file: a fresh write shadows every older one with the same name. -/
def Disk.store (d : Disk) (n : String) (f : DiskFile) : Disk := (n, f) :: d

/-- Reading a file: the most recent write under that name, if any. -/
def Disk.get? (d : Disk) (n : String) : Option DiskFile :=
  (d.find? (fun e => e.1 == n)).map (fun e => e.2)

/-- Reading a file that is expected to exist (a missing file would abort the
Python run with an exception; the default is never hit in the verified runs). -/
def Disk.getD (d : Disk) (n : String) : DiskFile :=
  (Disk.get? d n).getD (DiskFile.raw [])

/-- A sequence of writes, oldest first. -/
def Disk.storeList (d : Disk) (ws : List (String × DiskFile)) : Disk :=
  ws.foldl (fun dd w => Disk.store dd w.1 w.2) d

/-- `file.stat().st_size` of a file in the output directory. -/
def diskSizeOf (d : Disk) (n : String) : Nat := (DiskFile.bytes (Disk.getD d n)).length

/-- A regular file of the input tree: its basename and its bytes. -/
structure FSFile where
  name : String
  data : Bytes
deriving DecidableEq, Repr

/-- `Path(name).stem`: the basename without its last suffix.  The suffix is
the part from the last dot, provided that dot is neither the leading nor the
trailing character (pathlib's rule). -/
def stemOf (name : String) : String :=
  let rev := name.data.reverse
  match rev.findIdx? (fun c => c = Char.ofNat 46) with
  | none => name
  | some j => if 0 < j ∧ j < rev.length - 1 then String.mk ((rev.drop (j + 1)).reverse) else name

/-- Name of the `i`-th part archive of a split file (`{stem}_part{i}.zip`). -/
def partName (name : String) (i : Nat) : String :=
  stemOf name ++ "_part" ++ Nat.repr i ++ ".zip"

/-- Fuel-indexed version of the read loop of `split_large_file`
(`while chunk := f.read(max_size)`); the fuel bounds the remaining
iterations and is instantiated with the number of unread bytes. -/
def splitLoopF (T : Nat) : Nat → Nat → Bytes → List (Nat × Bytes)
  | 0, _, _ => []
  | fuel + 1, num, data =>
    if data = [] ∨ T = 0 then []
    else (num, data.take T) :: splitLoopF T fuel (num + 1) (data.drop T)

/-- The read loop of `split_large_file`: successive `f.read(max_size)` chunks
paired with their part number, starting at `num`. -/
def splitLoop (T : Nat) (num : Nat) (data : Bytes) : List (Nat × Bytes) :=
  splitLoopF T data.length num data

/-- The part archives written by `split_large_file` to the output directory:
part `i` is a ZIP named `{stem}_part{i}.zip` holding one entry, named after
the source file, whose payload is the `i`-th chunk. -/
def partWrites (T : Nat) (f : FSFile) : List (String × DiskFile) :=
  (splitLoop T 1 f.data).map (fun p => (partName f.name p.1, DiskFile.zip [(f.name, p.2)]))

/-- The part archive names produced for one oversized file, in part order. -/
def partNamesOf (T : Nat) (f : FSFile) : List String :=
  (partWrites T f).map (fun w => w.1)

/-- `split_large_file`: writes the numbered part archives of one oversized
file into the output directory and returns their names in part order.  (The
side effect on the input tree — the extra folder and full copy it creates —
is modelled separately by `split_large_file_events`.) -/
def split_large_file (T : Nat) (f : FSFile) (d : Disk) : Disk × List String :=
  (Disk.storeList d (partWrites T f), partNamesOf T f)

/-- The folder walk of `split_folder_intelligently` (lines 65–74): classify
each regular file against the threshold; oversized files are split, normal
files are copied flat into the output directory and queued for grouping. -/
def walkLoop (T : Nat) : List FSFile → Disk → List String → List String → Disk × List String × List String
  | [], d, rej, ind => (d, rej, ind)
  | f :: rest, d, rej, ind =>
    if T < f.data.length then
      walkLoop T rest (split_large_file T f d).1 (rej ++ (split_large_file T f d).2) ind
    else
      walkLoop T rest (Disk.store d f.name (DiskFile.raw f.data)) rej (ind ++ [f.name])

/-- `create_zip_from_files`: a ZIP holding the listed output-directory files;
each arcname is the path relative to the output directory, i.e. the name. -/
def create_zip_from_files (d : Disk) (files : List String) : DiskFile :=
  DiskFile.zip (files.map (fun n => (n, DiskFile.bytes (Disk.getD d n))))

/-- Name of the `k`-th independent group archive. -/
def gname (k : Nat) : String := "independent_part" ++ Nat.repr k ++ ".zip"

/-- The grouping loop of `split_folder_intelligently` (lines 77–95), with the
output directory threaded through: each file's size is read from disk when
the loop reaches it, a flush zips the current group (reading its members from
disk) and stores the archive, and the final non-empty group is flushed. -/
def groupWrite (T : Nat) : List String → Disk → List String → Nat → Nat → Disk × List String
  | [], d, cur, _, num =>
    if cur = [] then (d, [])
    else (Disk.store d (gname num) (create_zip_from_files d cur), [gname num])
  | n :: rest, d, cur, curSize, num =>
    if T < curSize + diskSizeOf d n ∧ cur ≠ [] then
      ((groupWrite T rest (Disk.store d (gname num) (create_zip_from_files d cur)) [n]
          (diskSizeOf d n) (num + 1)).1,
       gname num ::
        (groupWrite T rest (Disk.store d (gname num) (create_zip_from_files d cur)) [n]
          (diskSizeOf d n) (num + 1)).2)
    else
      groupWrite T rest d (cur ++ [n]) (curSize + diskSizeOf d n) num

/-- The walk phase of one run, started on an empty output directory. -/
def runWalk (T : Nat) (files : List FSFile) : Disk × List String × List String :=
  walkLoop T files [] [] []

/-- `split_folder_intelligently`: walk, then group; returns the final output
directory, the rejoinable part names and the independent archive names. -/
def split_folder_intelligently (T : Nat) (files : List FSFile) : Disk × List String × List String :=
  ((groupWrite T (runWalk T files).2.2 (runWalk T files).1 [] 0 1).1,
   (runWalk T files).2.1,
   (groupWrite T (runWalk T files).2.2 (runWalk T files).1 [] 0 1).2)

/-- The static usage note written as `README.txt` (the stripped literal of
the source). -/
def readmeText : String :=
  "README - How to use this ZIP archive\n\nThis archive contains chunked ZIP files divided into two categories:\n\n1. Rejoinable/\n   - Contains parts of large files (e.g., PDFs, videos) that were split due to size.\n   - Use tools like 7-Zip, WinRAR, or `cat` to merge before extracting.\n\n2. Independent/\n   - Contains ZIPs of small files or folders which can be used independently."

/-- Byte content of the README entry. -/
def readmeBytes : Bytes := readmeText.data.map Char.toNat

/-- `create_final_zip`: the top-level archive; rejoinable chunks are placed
under `Rejoinable/`, independent chunks under `Independent/`, and the README
is written last.  Each nested chunk archive is included unchanged. -/
def create_final_zip (rejoinable independent : List String) (d : Disk) : List (String × DiskFile) :=
  (independent.foldl (fun acc z => acc ++ [("Independent/" ++ z, Disk.getD d z)])
    (rejoinable.foldl (fun acc z => acc ++ [("Rejoinable/" ++ z, Disk.getD d z)]) []))
  ++ [("README.txt", DiskFile.raw readmeBytes)]

/-- One whole processing run on an input tree snapshot: split, group, and
assemble the top-level archive. -/
def process (T : Nat) (files : List FSFile) : List (String × DiskFile) :=
  create_final_zip (split_folder_intelligently T files).2.1
    (split_folder_intelligently T files).2.2 (split_folder_intelligently T files).1

/-- The grouping loop viewed purely (lines 77–95), with each file's size
abstracted to a fixed attribute `sz`: a flush happens when adding the next
file would push the running total over the threshold and the group is
non-empty; the final non-empty group is always flushed. -/
def group_files (T : Nat) (sz : α → Nat) : List α → List α → Nat → List (List α)
  | [], cur, _ => if cur.isEmpty then [] else [cur]
  | f :: rest, cur, curSize =>
    if T < curSize + sz f ∧ cur.isEmpty = false then
      cur :: group_files T sz rest [f] (sz f)
    else
      group_files T sz rest (cur ++ [f]) (curSize + sz f)

/-- The grouping pass on the full list of normal files. -/
def group_independent (T : Nat) (sz : α → Nat) (files : List α) : List (List α) :=
  group_files T sz files [] 0

/-- Filesystem effects of `split_large_file`, in program order.  Input-tree
effects (`mkdirInput`, `copyInput`) are relative to the directory of the file
being split, which lies inside the tree the folder walk traverses. -/
inductive FileEvent where
  | mkdirInput (folder : String)
  | copyInput (path : String) (data : Bytes)
  | writeOutput (name : String) (file : DiskFile)
deriving DecidableEq, Repr

/-- The effect trace of `split_large_file` (lines 42–59): it first creates a
folder named after the stem next to the source file, then copies the full
original into it, and only then writes the numbered part archives. -/
def split_large_file_events (T : Nat) (f : FSFile) : List FileEvent :=
  FileEvent.mkdirInput (stemOf f.name) ::
  FileEvent.copyInput (stemOf f.name ++ "/" ++ f.name) f.data ::
  (partWrites T f).map (fun w => FileEvent.writeOutput w.1 w.2)

/-- One uploaded file: its name, its bytes, and — abstracting
`zipfile.ZipFile` — the entry list its bytes parse to when they form a valid
ZIP archive (`none` when `zipfile.BadZipFile` would be raised). -/
structure Upload where
  name : String
  content : Bytes
  parsedZip : Option (List (String × Bytes))
deriving DecidableEq, Repr

/-- The input tree, as a flat listing of relative paths with their bytes. -/
abbrev InputTree := List (String × Bytes)

/-- Writing a file into the input tree: overwrites any previous file with
the same path. -/
def treeStore (t : InputTree) (n : String) (b : Bytes) : InputTree :=
  t.filter (fun e => !(e.1 == n)) ++ [(n, b)]

/-- `name.endswith(".zip")`. -/
def endsWithZip (s : String) : Bool := List.isSuffixOf ".zip".data s.data

/-- One iteration of the upload loop (lines 167–178): the uploaded bytes are
written into the input tree; a `.zip`-named upload is then opened: a valid
archive is extracted into the tree and the uploaded file removed, while a
malformed one raises `BadZipFile`, which is caught and reported — and the
uploaded file stays in the tree, because `os.remove` is skipped. -/
def uploadStep (acc : InputTree × List String) (u : Upload) : InputTree × List String :=
  if endsWithZip u.name then
    match u.parsedZip with
    | some entries =>
        ((entries.foldl (fun t e => treeStore t e.1 e.2) (treeStore acc.1 u.name u.content)).filter
          (fun e => !(e.1 == u.name)), acc.2)
    | none => (treeStore acc.1 u.name u.content, acc.2 ++ ["Invalid ZIP: " ++ u.name])
  else (treeStore acc.1 u.name u.content, acc.2)

/-- The whole upload loop: the resulting input tree and the error messages
shown to the user. -/
def extractUploads (ups : List Upload) : InputTree × List String :=
  ups.foldl uploadStep ([], [])

/-- The files of the input tree as seen by the folder walk. -/
def filesOfTree (t : InputTree) : List FSFile :=
  t.map (fun e => { name := e.1, data := e.2 })

/-- The chunk-size resolution (lines 151–156): a successful parse of the size
text is used as the threshold; a parse failure is caught, a sidebar error is
shown (second component `true`) and the threshold falls back to the fixed
default `5 * 1024 * 1024`.  The external `humanfriendly.parse_size` library
call is abstracted by its `Option Nat` outcome. -/
def resolve_chunk_size (parsed : Option Nat) : Nat × Bool :=
  match parsed with
  | some n => (n, false)
  | none => (5 * 1024 * 1024, true)

/-- Whether `p` is a character-wise prefix of `s`. -/
def hasPrefixStr (p s : String) : Bool := List.isPrefixOf p.data s.data

/-- Extracting an archive listing: with duplicate arcnames, the entry
extracted last wins. -/
def lastWins : List (String × DiskFile) → List (String × DiskFile)
  | [] => []
  | e :: rest =>
    if rest.any (fun x => x.1 == e.1) then lastWins rest else e :: lastWins rest

/-- Fuel-indexed reassembly: group the listed (file name, chunk) pairs by
file name, in order of first appearance, concatenating each file's chunks in
listed (= ascending part) order. -/
def reassembleF : Nat → List (String × Bytes) → List (String × Bytes)
  | 0, _ => []
  | _ + 1, [] => []
  | fuel + 1, e :: rest =>
    (e.1, e.2 ++ ((rest.filter (fun x => x.1 == e.1)).map (fun x => x.2)).flatten) ::
    reassembleF fuel (rest.filter (fun x => !(x.1 == e.1)))

/-- Reassembly of split files from their extracted parts. -/
def reassemble (l : List (String × Bytes)) : List (String × Bytes) :=
  reassembleF l.length l

/-- The user-side round trip the specification describes: extract the
top-level archive, reassemble the `Rejoinable/` parts per file, and extract
the `Independent/` archives. -/
def recover (final : List (String × DiskFile)) : List (String × Bytes) :=
  reassemble ((lastWins final).flatMap
      (fun e => if hasPrefixStr "Rejoinable/" e.1 then DiskFile.entriesOf e.2 else []))
  ++ (lastWins final).flatMap
      (fun e => if hasPrefixStr "Independent/" e.1 then DiskFile.entriesOf e.2 else [])

/-- The data of the normal (≤ threshold) file with a given name. -/
def normalData (T : Nat) (files : List FSFile) (n : String) : Bytes :=
  match (files.filter (fun f => decide (f.data.length ≤ T))).find? (fun f => f.name == n) with
  | some f => f.data
  | none => []

/-- The oversized files of a run, in traversal order. -/
def bigFiles (T : Nat) (files : List FSFile) : List FSFile :=
  files.filter (fun f => decide (T < f.data.length))

/-- The normal files of a run, in traversal order. -/
def normalFiles (T : Nat) (files : List FSFile) : List FSFile :=
  files.filter (fun f => decide (f.data.length ≤ T))

/-- The writes one walked file causes in the output directory. -/
def walkWrites (T : Nat) (f : FSFile) : List (String × DiskFile) :=
  if T < f.data.length then partWrites T f else [(f.name, DiskFile.raw f.data)]

/-- The rejoinable part names a run produces. -/
def runRejoinable (T : Nat) (files : List FSFile) : List String := (runWalk T files).2.1

/-- The names of the normal files queued for grouping by a run. -/
def runQueue (T : Nat) (files : List FSFile) : List String := (runWalk T files).2.2

/-- The independent archive names a run produces. -/
def runZips (T : Nat) (files : List FSFile) : List String :=
  (groupWrite T (runQueue T files) (runWalk T files).1 [] 0 1).2

theorem splitLoopF_congr (T : Nat) : ∀ (n₁ n₂ num : Nat) (data : Bytes),
    data.length ≤ n₁ → data.length ≤ n₂ →
    splitLoopF T n₁ num data = splitLoopF T n₂ num data := by
  intro n₁
  induction n₁ with
  | zero =>
    intro n₂ num data h₁ h₂
    have hd : data = [] := List.eq_nil_of_length_eq_zero (Nat.le_zero.mp h₁)
    subst hd
    cases n₂ <;> simp [splitLoopF]
  | succ n ih =>
    intro n₂ num data h₁ h₂
    cases n₂ with
    | zero =>
      have hd : data = [] := List.eq_nil_of_length_eq_zero (Nat.le_zero.mp h₂)
      subst hd
      simp [splitLoopF]
    | succ m =>
      simp only [splitLoopF]
      by_cases hd : data = [] ∨ T = 0
      · rw [if_pos hd, if_pos hd]
      · rw [if_neg hd, if_neg hd]
        push_neg at hd
        have hlen : 0 < data.length := List.length_pos.mpr hd.1
        have hT : 0 < T := Nat.pos_of_ne_zero hd.2
        have hdr : (data.drop T).length = data.length - T := List.length_drop T data
        congr 1
        exact ih m (num + 1) (data.drop T) (by omega) (by omega)

/-- The unfolding equation of the read loop. -/
theorem splitLoop_eq (T num : Nat) (data : Bytes) :
    splitLoop T num data =
      if data = [] ∨ T = 0 then []
      else (num, data.take T) :: splitLoop T (num + 1) (data.drop T) := by
  cases data with
  | nil => simp [splitLoop, splitLoopF]
  | cons a l =>
    by_cases hT : T = 0
    · simp [splitLoop, splitLoopF, hT]
    · have hd : ¬ (a :: l = [] ∨ T = 0) := by simp [hT]
      rw [if_neg hd]
      simp only [splitLoop, List.length_cons, splitLoopF, if_neg hd]
      congr 1
      apply splitLoopF_congr
      · have : ((a :: l).drop T).length = (a :: l).length - T := List.length_drop T (a :: l)
        simp only [List.length_cons] at this
        omega
      · exact Nat.le_refl _

theorem splitLoop_flatten_aux (T : Nat) (hT : 0 < T) : ∀ (n : Nat) (data : Bytes),
    data.length ≤ n → ∀ num, ((splitLoop T num data).map Prod.snd).flatten = data := by
  intro n
  induction n with
  | zero =>
    intro data h num
    have hd : data = [] := List.eq_nil_of_length_eq_zero (Nat.le_zero.mp h)
    subst hd
    rw [splitLoop_eq]
    simp
  | succ n ih =>
    intro data h num
    rw [splitLoop_eq]
    by_cases hd : data = []
    · simp [hd]
    · have hc : ¬ (data = [] ∨ T = 0) := by
        rintro (h1 | h1)
        · exact hd h1
        · omega
      rw [if_neg hc]
      have hdr : (data.drop T).length = data.length - T := List.length_drop T data
      have hlen : 0 < data.length := List.length_pos.mpr hd
      simp only [List.map_cons, List.flatten_cons]
      rw [ih (data.drop T) (by omega) (num + 1)]
      exact List.take_append_drop T data

/-- Concatenating the chunks of the read loop in order restores the bytes. -/
theorem splitLoop_flatten (T : Nat) (hT : 0 < T) (data : Bytes) (num : Nat) :
    ((splitLoop T num data).map Prod.snd).flatten = data :=
  splitLoop_flatten_aux T hT data.length data (Nat.le_refl _) num

theorem splitLoop_length_aux (T : Nat) (hT : 0 < T) : ∀ (n : Nat) (data : Bytes),
    data.length ≤ n → ∀ num, (splitLoop T num data).length = (data.length + T - 1) / T := by
  intro n
  induction n with
  | zero =>
    intro data h num
    have hd : data = [] := List.eq_nil_of_length_eq_zero (Nat.le_zero.mp h)
    subst hd
    rw [splitLoop_eq]
    simp
    exact (Nat.div_eq_of_lt (by omega)).symm
  | succ n ih =>
    intro data h num
    rw [splitLoop_eq]
    by_cases hd : data = []
    · subst hd
      simp
      exact (Nat.div_eq_of_lt (by omega)).symm
    · have hc : ¬ (data = [] ∨ T = 0) := by
        rintro (h1 | h1)
        · exact hd h1
        · omega
      rw [if_neg hc]
      have hdr : (data.drop T).length = data.length - T := List.length_drop T data
      have hlen : 0 < data.length := List.length_pos.mpr hd
      simp only [List.length_cons]
      rw [ih (data.drop T) (by omega) (num + 1), hdr]
      have h1 : data.length + T - 1 = (data.length - 1) + T := by omega
      rw [h1, Nat.add_div_right _ hT]
      rcases le_or_lt data.length T with hle | hlt
      · have e1 : data.length - T = 0 := by omega
        rw [e1]
        rw [Nat.div_eq_of_lt (by omega), Nat.div_eq_of_lt (by omega)]
      · have e1 : data.length - T + T - 1 = (data.length - T - 1) + T := by omega
        rw [e1, Nat.add_div_right _ hT]
        have e2 : data.length - T - 1 = data.length - 1 - T := by omega
        rw [e2]
        have e3 : data.length - 1 = (data.length - 1 - T) + T := by omega
        conv_rhs => rw [e3]
        rw [Nat.add_div_right _ hT]

/-- The read loop produces exactly `ceil(size / T)` chunks. -/
theorem splitLoop_length (T : Nat) (hT : 0 < T) (data : Bytes) (num : Nat) :
    (splitLoop T num data).length = (data.length + T - 1) / T :=
  splitLoop_length_aux T hT data.length data (Nat.le_refl _) num

theorem splitLoop_numbers_aux (T : Nat) : ∀ (n : Nat) (data : Bytes),
    data.length ≤ n → ∀ num,
    (splitLoop T num data).map Prod.fst = List.range' num (splitLoop T num data).length := by
  intro n
  induction n with
  | zero =>
    intro data h num
    have hd : data = [] := List.eq_nil_of_length_eq_zero (Nat.le_zero.mp h)
    subst hd
    rw [splitLoop_eq]
    simp
  | succ n ih =>
    intro data h num
    rw [splitLoop_eq]
    by_cases hc : data = [] ∨ T = 0
    · rw [if_pos hc]
      simp
    · rw [if_neg hc]
      push_neg at hc
      have hdr : (data.drop T).length = data.length - T := List.length_drop T data
      have hlen : 0 < data.length := List.length_pos.mpr hc.1
      have hT : 0 < T := Nat.pos_of_ne_zero hc.2
      simp only [List.map_cons, List.length_cons]
      rw [ih (data.drop T) (by omega) (num + 1)]
      rw [List.range'_succ num _ 1]

/-- Part numbers are consecutive from the starting number. -/
theorem splitLoop_numbers (T : Nat) (data : Bytes) (num : Nat) :
    (splitLoop T num data).map Prod.fst = List.range' num (splitLoop T num data).length :=
  splitLoop_numbers_aux T data.length data (Nat.le_refl _) num

theorem splitLoop_getElem_aux (T : Nat) (hT : 0 < T) : ∀ (n : Nat) (data : Bytes),
    data.length ≤ n → ∀ num j (h : j < (splitLoop T num data).length),
    (splitLoop T num data)[j] = (num + j, (data.drop (j * T)).take T) := by
  intro n
  induction n with
  | zero =>
    intro data hle num j h
    have hd : data = [] := List.eq_nil_of_length_eq_zero (Nat.le_zero.mp hle)
    subst hd
    rw [splitLoop_eq] at h
    simp at h
  | succ n ih =>
    intro data hle num j h
    by_cases hd : data = []
    · subst hd
      rw [splitLoop_eq] at h
      simp at h
    · have hc : ¬ (data = [] ∨ T = 0) := by
        rintro (h1 | h1)
        · exact hd h1
        · omega
      have he : splitLoop T num data = (num, data.take T) :: splitLoop T (num + 1) (data.drop T) := by
        rw [splitLoop_eq, if_neg hc]
      have hdr : (data.drop T).length = data.length - T := List.length_drop T data
      have hlen : 0 < data.length := List.length_pos.mpr hd
      cases j with
      | zero => simp [he]
      | succ k =>
        have hk : k < (splitLoop T (num + 1) (data.drop T)).length := by
          rw [he] at h
          simp only [List.length_cons] at h
          omega
        have step : (splitLoop T num data)[k + 1] =
            (splitLoop T (num + 1) (data.drop T))[k] := by
          simp only [he, List.getElem_cons_succ]
        rw [step, ih (data.drop T) (by omega) (num + 1) k hk, List.drop_drop]
        simp only [Prod.mk.injEq]
        constructor
        · omega
        · rw [Nat.succ_mul, Nat.add_comm]

/-- The `j`-th chunk (0-based) carries part number `num + j` and holds the
byte range from `j * T` (clipped to the end of the file). -/
theorem splitLoop_getElem (T : Nat) (hT : 0 < T) (data : Bytes) (num j : Nat)
    (h : j < (splitLoop T num data).length) :
    (splitLoop T num data)[j] = (num + j, (data.drop (j * T)).take T) :=
  splitLoop_getElem_aux T hT data.length data (Nat.le_refl _) num j h

theorem Disk.get?_store_same (d : Disk) (n : String) (f : DiskFile) :
    Disk.get? (Disk.store d n f) n = some f := by
  simp [Disk.get?, Disk.store, List.find?_cons]

theorem Disk.get?_store_ne (d : Disk) (n m : String) (f : DiskFile) (h : m ≠ n) :
    Disk.get? (Disk.store d n f) m = Disk.get? d m := by
  have hb : (n == m) = false := by
    simp
    exact fun he => h he.symm
  simp [Disk.get?, Disk.store, List.find?_cons, hb]

theorem Disk.getD_store_same (d : Disk) (n : String) (f : DiskFile) :
    Disk.getD (Disk.store d n f) n = f := by
  simp [Disk.getD, Disk.get?_store_same]

theorem Disk.storeList_append (d : Disk) (ws₁ ws₂ : List (String × DiskFile)) :
    Disk.storeList d (ws₁ ++ ws₂) = Disk.storeList (Disk.storeList d ws₁) ws₂ := by
  simp [Disk.storeList, List.foldl_append]

theorem Disk.storeList_cons (d : Disk) (w : String × DiskFile) (ws : List (String × DiskFile)) :
    Disk.storeList d (w :: ws) = Disk.storeList (Disk.store d w.1 w.2) ws := rfl

theorem Disk.get?_storeList_not_mem (m : String) :
    ∀ (ws : List (String × DiskFile)) (d : Disk), (∀ w ∈ ws, w.1 ≠ m) →
    Disk.get? (Disk.storeList d ws) m = Disk.get? d m := by
  intro ws
  induction ws with
  | nil => intro d _; rfl
  | cons w ws ih =>
    intro d h
    rw [Disk.storeList_cons, ih _ (fun x hx => h x (List.mem_cons_of_mem _ hx))]
    exact Disk.get?_store_ne d w.1 m w.2 (fun he => h w (List.mem_cons_self _ _) he.symm)

theorem Disk.get?_storeList_mem (d : Disk) (ws : List (String × DiskFile)) (n : String)
    (f : DiskFile) (hmem : (n, f) ∈ ws) (hnd : (ws.map Prod.fst).Nodup) :
    Disk.get? (Disk.storeList d ws) n = some f := by
  obtain ⟨s, t, rfl⟩ := List.append_of_mem hmem
  rw [Disk.storeList_append, Disk.storeList_cons]
  have hnt : ∀ w ∈ t, w.1 ≠ n := by
    intro w hw he
    have h1 : ((s ++ (n, f) :: t).map Prod.fst) = s.map Prod.fst ++ n :: t.map Prod.fst := by
      simp
    rw [h1] at hnd
    have h2 : (n :: t.map Prod.fst).Nodup := hnd.of_append_right
    have h3 : n ∉ t.map Prod.fst := (List.nodup_cons.mp h2).1
    exact h3 (he ▸ List.mem_map_of_mem Prod.fst hw)
  rw [Disk.get?_storeList_not_mem n t _ hnt]
  exact Disk.get?_store_same _ n f

theorem foldl_append_map (g : β → γ) : ∀ (l : List β) (acc : List γ),
    l.foldl (fun a z => a ++ [g z]) acc = acc ++ l.map g := by
  intro l
  induction l with
  | nil => intro acc; simp
  | cons x l ih =>
    intro acc
    simp only [List.foldl_cons, List.map_cons]
    rw [ih]
    simp

/-- The top-level archive, spelled out: the `Rejoinable/` section, then the
`Independent/` section, then the README entry. -/
theorem create_final_zip_eq (r i : List String) (d : Disk) :
    create_final_zip r i d =
      r.map (fun z => ("Rejoinable/" ++ z, Disk.getD d z)) ++
      i.map (fun z => ("Independent/" ++ z, Disk.getD d z)) ++
      [("README.txt", DiskFile.raw readmeBytes)] := by
  simp only [create_final_zip, foldl_append_map, List.nil_append, List.append_assoc]

/-- The folder walk, characterized: the output directory receives the writes
of each file in traversal order, the rejoinable names accumulate the part
names of the oversized files, and the grouping queue accumulates the names of
the normal files. -/
theorem walkLoop_spec (T : Nat) : ∀ (files : List FSFile) (d : Disk) (rej ind : List String),
    walkLoop T files d rej ind =
      (Disk.storeList d (files.flatMap (walkWrites T)),
       rej ++ files.flatMap (fun f => if T < f.data.length then partNamesOf T f else []),
       ind ++ (normalFiles T files).map FSFile.name) := by
  intro files
  induction files with
  | nil =>
    intro d rej ind
    simp [walkLoop, Disk.storeList, normalFiles]
  | cons f rest ih =>
    intro d rej ind
    by_cases hb : T < f.data.length
    · have hred : walkLoop T (f :: rest) d rej ind =
          walkLoop T rest (split_large_file T f d).1 (rej ++ (split_large_file T f d).2) ind := by
        simp only [walkLoop, if_pos hb]
      rw [hred, ih]
      have hw : walkWrites T f = partWrites T f := by simp [walkWrites, hb]
      have hnf : normalFiles T (f :: rest) = normalFiles T rest := by
        simp [normalFiles, List.filter_cons, Nat.not_le.mpr hb]
      refine Prod.ext ?_ (Prod.ext ?_ ?_)
      · simp [split_large_file, List.flatMap_cons, hw, Disk.storeList_append]
      · simp [split_large_file, List.flatMap_cons, hb, partNamesOf]
      · simp [hnf]
    · have hred : walkLoop T (f :: rest) d rej ind =
          walkLoop T rest (Disk.store d f.name (DiskFile.raw f.data)) rej (ind ++ [f.name]) := by
        simp only [walkLoop, if_neg hb]
      rw [hred, ih]
      have hw : walkWrites T f = [(f.name, DiskFile.raw f.data)] := by simp [walkWrites, hb]
      have hnf : normalFiles T (f :: rest) = f :: normalFiles T rest := by
        simp [normalFiles, List.filter_cons, Nat.not_lt.mp hb]
      refine Prod.ext ?_ (Prod.ext ?_ ?_)
      · simp [List.flatMap_cons, hw, Disk.storeList_append, Disk.storeList, Disk.store]
      · simp [List.flatMap_cons, hb]
      · simp [hnf]

/-- The grouping loop, characterized under the hypotheses that every queued
member is currently on disk as its raw copy and that no produced archive name
collides with a member name: the produced archives' entries, concatenated in
archive order, are exactly the queued members with their copied bytes, and
every other disk name is untouched. -/
theorem groupWrite_spec (T : Nat) (v : String → Bytes) :
    ∀ (names : List String) (d : Disk) (cur : List String) (curSize num : Nat),
    (∀ n, n ∈ names ++ cur → Disk.get? d n = some (DiskFile.raw (v n))) →
    (∀ n, n ∈ names ++ cur → n ∉ (groupWrite T names d cur curSize num).2) →
    (groupWrite T names d cur curSize num).2.Nodup →
    ((groupWrite T names d cur curSize num).2.flatMap
        (fun z => DiskFile.entriesOf (Disk.getD (groupWrite T names d cur curSize num).1 z))
      = (cur ++ names).map (fun n => (n, v n)))
    ∧ (∀ m, m ∉ (groupWrite T names d cur curSize num).2 →
        Disk.get? (groupWrite T names d cur curSize num).1 m = Disk.get? d m) := by
  intro names
  induction names with
  | nil =>
    intro d cur curSize num hmem hfresh hnd
    by_cases hc : cur = []
    · subst hc
      simp [groupWrite]
    · have hred : groupWrite T [] d cur curSize num =
          (Disk.store d (gname num) (create_zip_from_files d cur), [gname num]) := by
        simp only [groupWrite, if_neg hc]
      rw [hred]
      constructor
      · simp only [List.flatMap_cons, List.flatMap_nil, List.append_nil]
        rw [Disk.getD_store_same]
        simp only [create_zip_from_files, DiskFile.entriesOf, List.nil_append]
        apply List.map_congr_left
        intro n hn
        have h1 := hmem n (by simpa using hn)
        simp [Disk.getD, h1, DiskFile.bytes]
      · intro m hm
        have hne : m ≠ gname num := by simpa using hm
        exact Disk.get?_store_ne d _ m _ hne
  | cons n0 rest ih =>
    intro d cur curSize num hmem hfresh hnd
    by_cases hc : T < curSize + diskSizeOf d n0 ∧ cur ≠ []
    · have hred : groupWrite T (n0 :: rest) d cur curSize num =
          ((groupWrite T rest (Disk.store d (gname num) (create_zip_from_files d cur)) [n0]
              (diskSizeOf d n0) (num + 1)).1,
           gname num ::
            (groupWrite T rest (Disk.store d (gname num) (create_zip_from_files d cur)) [n0]
              (diskSizeOf d n0) (num + 1)).2) := by
        simp only [groupWrite, if_pos hc]
      rw [hred] at hfresh hnd ⊢
      have hnum_notin : gname num ∉ (groupWrite T rest
          (Disk.store d (gname num) (create_zip_from_files d cur)) [n0]
          (diskSizeOf d n0) (num + 1)).2 := (List.nodup_cons.mp hnd).1
      have hnd2 := (List.nodup_cons.mp hnd).2
      have hmem2 : ∀ n, n ∈ rest ++ [n0] →
          Disk.get? (Disk.store d (gname num) (create_zip_from_files d cur)) n =
            some (DiskFile.raw (v n)) := by
        intro n hn
        have hn' : n ∈ (n0 :: rest) ++ cur := by
          rcases List.mem_append.mp hn with h1 | h1
          · exact List.mem_append.mpr (Or.inl (List.mem_cons_of_mem _ h1))
          · simp at h1
            subst h1
            exact List.mem_append.mpr (Or.inl (List.mem_cons_self _ _))
        have hne : n ≠ gname num := by
          intro he
          exact (hfresh n hn') (he ▸ List.mem_cons_self _ _)
        rw [Disk.get?_store_ne d _ n _ hne]
        exact hmem n hn'
      have hfresh2 : ∀ n, n ∈ rest ++ [n0] → n ∉ (groupWrite T rest
          (Disk.store d (gname num) (create_zip_from_files d cur)) [n0]
          (diskSizeOf d n0) (num + 1)).2 := by
        intro n hn hin
        have hn' : n ∈ (n0 :: rest) ++ cur := by
          rcases List.mem_append.mp hn with h1 | h1
          · exact List.mem_append.mpr (Or.inl (List.mem_cons_of_mem _ h1))
          · simp at h1
            subst h1
            exact List.mem_append.mpr (Or.inl (List.mem_cons_self _ _))
        exact (hfresh n hn') (List.mem_cons_of_mem _ hin)
      obtain ⟨ihA, ihB⟩ := ih (Disk.store d (gname num) (create_zip_from_files d cur)) [n0]
        (diskSizeOf d n0) (num + 1) hmem2 hfresh2 hnd2
      constructor
      · simp only [List.flatMap_cons]
        have hz : Disk.getD (groupWrite T rest
            (Disk.store d (gname num) (create_zip_from_files d cur)) [n0]
            (diskSizeOf d n0) (num + 1)).1 (gname num) = create_zip_from_files d cur := by
          simp only [Disk.getD]
          rw [ihB _ hnum_notin, Disk.get?_store_same]
          rfl
        rw [ihA, hz]
        simp only [create_zip_from_files, DiskFile.entriesOf]
        have hcur : cur.map (fun n => (n, DiskFile.bytes (Disk.getD d n))) =
            cur.map (fun n => (n, v n)) := by
          apply List.map_congr_left
          intro n hn
          have h1 := hmem n (List.mem_append.mpr (Or.inr hn))
          simp [Disk.getD, h1, DiskFile.bytes]
        rw [hcur]
        simp
      · intro m hm
        have hm2 : m ∉ (groupWrite T rest
            (Disk.store d (gname num) (create_zip_from_files d cur)) [n0]
            (diskSizeOf d n0) (num + 1)).2 := fun h => hm (List.mem_cons_of_mem _ h)
        have hmg : m ≠ gname num := by
          intro he
          exact hm (he ▸ List.mem_cons_self _ _)
        rw [ihB m hm2]
        exact Disk.get?_store_ne d _ m _ hmg
    · have hred : groupWrite T (n0 :: rest) d cur curSize num =
          groupWrite T rest d (cur ++ [n0]) (curSize + diskSizeOf d n0) num := by
        simp only [groupWrite, if_neg hc]
      rw [hred] at hfresh hnd ⊢
      have hmemeq : ∀ n : String, n ∈ rest ++ (cur ++ [n0]) ↔ n ∈ (n0 :: rest) ++ cur := by
        intro n
        simp [List.mem_append, List.mem_cons]
        tauto
      obtain ⟨ihA, ihB⟩ := ih d (cur ++ [n0]) (curSize + diskSizeOf d n0) num
        (fun n hn => hmem n ((hmemeq n).mp hn))
        (fun n hn => hfresh n ((hmemeq n).mp hn)) hnd
      constructor
      · rw [ihA]
        simp
      · exact ihB

/-- Size bound of the grouping loop on the disk-threaded model: when every
queued member is on disk as its raw copy, no produced archive name collides
with a member name, the produced names are distinct, every remaining member
fits the threshold, and the running group's recorded size is its true total
and is bounded, then every produced archive's total entry payload is bounded
by the threshold. -/
theorem groupWrite_sum_le (T : Nat) (v : String → Bytes) :
    ∀ (names : List String) (d : Disk) (cur : List String) (curSize num : Nat),
    (∀ n, n ∈ names ++ cur → Disk.get? d n = some (DiskFile.raw (v n))) →
    (∀ n, n ∈ names ++ cur → n ∉ (groupWrite T names d cur curSize num).2) →
    (groupWrite T names d cur curSize num).2.Nodup →
    (∀ n, n ∈ names → (v n).length ≤ T) →
    curSize = (cur.map (fun n => (v n).length)).sum →
    curSize ≤ T →
    ∀ z ∈ (groupWrite T names d cur curSize num).2,
      ((DiskFile.entriesOf (Disk.getD (groupWrite T names d cur curSize num).1 z)).map
        (fun e => e.2.length)).sum ≤ T := by
  intro names
  induction names with
  | nil =>
    intro d cur curSize num hmem hfresh hnd hall hsum hle z hz
    by_cases hc : cur = []
    · subst hc
      simp [groupWrite] at hz
    · have hred : groupWrite T [] d cur curSize num =
          (Disk.store d (gname num) (create_zip_from_files d cur), [gname num]) := by
        simp only [groupWrite, if_neg hc]
      rw [hred] at hz ⊢
      simp only [List.mem_singleton] at hz
      subst hz
      rw [Disk.getD_store_same]
      simp only [create_zip_from_files, DiskFile.entriesOf, List.map_map]
      have hcomp : ((fun e : String × Bytes => e.2.length) ∘
          fun n => (n, DiskFile.bytes (Disk.getD d n))) =
          fun n => (DiskFile.bytes (Disk.getD d n)).length := rfl
      rw [hcomp]
      have hmap : cur.map (fun n => (DiskFile.bytes (Disk.getD d n)).length) =
          cur.map (fun n => (v n).length) := by
        apply List.map_congr_left
        intro n hn
        have h1 := hmem n (by simpa using hn)
        simp [Disk.getD, h1, DiskFile.bytes]
      rw [hmap, ← hsum]
      exact hle
  | cons n0 rest ih =>
    intro d cur curSize num hmem hfresh hnd hall hsum hle z hz
    have hszf : diskSizeOf d n0 = (v n0).length := by
      have h1 := hmem n0 (List.mem_append.mpr (Or.inl (List.mem_cons_self _ _)))
      simp [diskSizeOf, Disk.getD, h1, DiskFile.bytes]
    by_cases hc : T < curSize + diskSizeOf d n0 ∧ cur ≠ []
    · have hred : groupWrite T (n0 :: rest) d cur curSize num =
          ((groupWrite T rest (Disk.store d (gname num) (create_zip_from_files d cur)) [n0]
              (diskSizeOf d n0) (num + 1)).1,
           gname num ::
            (groupWrite T rest (Disk.store d (gname num) (create_zip_from_files d cur)) [n0]
              (diskSizeOf d n0) (num + 1)).2) := by
        simp only [groupWrite, if_pos hc]
      rw [hred] at hfresh hnd hz ⊢
      have hnum_notin : gname num ∉ (groupWrite T rest
          (Disk.store d (gname num) (create_zip_from_files d cur)) [n0]
          (diskSizeOf d n0) (num + 1)).2 := (List.nodup_cons.mp hnd).1
      have hnd2 := (List.nodup_cons.mp hnd).2
      have hmemtrans : ∀ n, n ∈ rest ++ [n0] → n ∈ (n0 :: rest) ++ cur := by
        intro n hn
        rcases List.mem_append.mp hn with h1 | h1
        · exact List.mem_append.mpr (Or.inl (List.mem_cons_of_mem _ h1))
        · simp at h1
          subst h1
          exact List.mem_append.mpr (Or.inl (List.mem_cons_self _ _))
      have hmem2 : ∀ n, n ∈ rest ++ [n0] →
          Disk.get? (Disk.store d (gname num) (create_zip_from_files d cur)) n =
            some (DiskFile.raw (v n)) := by
        intro n hn
        have hne : n ≠ gname num := by
          intro he
          exact (hfresh n (hmemtrans n hn)) (he ▸ List.mem_cons_self _ _)
        rw [Disk.get?_store_ne d _ n _ hne]
        exact hmem n (hmemtrans n hn)
      have hfresh2 : ∀ n, n ∈ rest ++ [n0] → n ∉ (groupWrite T rest
          (Disk.store d (gname num) (create_zip_from_files d cur)) [n0]
          (diskSizeOf d n0) (num + 1)).2 :=
        fun n hn hin => (hfresh n (hmemtrans n hn)) (List.mem_cons_of_mem _ hin)
      rcases List.mem_cons.mp hz with rfl | hz'
      · obtain ⟨_, ihB⟩ := groupWrite_spec T v rest
          (Disk.store d (gname num) (create_zip_from_files d cur)) [n0]
          (diskSizeOf d n0) (num + 1) hmem2 hfresh2 hnd2
        have hz1 : Disk.getD (groupWrite T rest
            (Disk.store d (gname num) (create_zip_from_files d cur)) [n0]
            (diskSizeOf d n0) (num + 1)).1 (gname num) = create_zip_from_files d cur := by
          simp only [Disk.getD]
          rw [ihB _ hnum_notin, Disk.get?_store_same]
          rfl
        rw [hz1]
        simp only [create_zip_from_files, DiskFile.entriesOf, List.map_map]
        have hcomp : ((fun e : String × Bytes => e.2.length) ∘
            fun n => (n, DiskFile.bytes (Disk.getD d n))) =
            fun n => (DiskFile.bytes (Disk.getD d n)).length := rfl
        rw [hcomp]
        have hmap : cur.map (fun n => (DiskFile.bytes (Disk.getD d n)).length) =
            cur.map (fun n => (v n).length) := by
          apply List.map_congr_left
          intro n hn
          have h1 := hmem n (List.mem_append.mpr (Or.inr hn))
          simp [Disk.getD, h1, DiskFile.bytes]
        rw [hmap, ← hsum]
        exact hle
      · exact ih (Disk.store d (gname num) (create_zip_from_files d cur)) [n0]
          (diskSizeOf d n0) (num + 1) hmem2 hfresh2 hnd2
          (fun n hn => hall n (List.mem_cons_of_mem _ hn))
          (by rw [hszf]; simp)
          (by rw [hszf]; exact hall n0 (List.mem_cons_self _ _)) z hz'
    · have hred : groupWrite T (n0 :: rest) d cur curSize num =
          groupWrite T rest d (cur ++ [n0]) (curSize + diskSizeOf d n0) num := by
        simp only [groupWrite, if_neg hc]
      rw [hred] at hfresh hnd hz ⊢
      have hmemeq : ∀ n : String, n ∈ rest ++ (cur ++ [n0]) ↔ n ∈ (n0 :: rest) ++ cur := by
        intro n
        simp [List.mem_append, List.mem_cons]
        tauto
      have hnewle : curSize + diskSizeOf d n0 ≤ T := by
        rcases Decidable.not_and_iff_or_not.mp hc with h1 | h1
        · omega
        · have hcur : cur = [] := Decidable.not_not.mp h1
          subst hcur
          simp only [List.map_nil, List.sum_nil] at hsum
          rw [hszf]
          have := hall n0 (List.mem_cons_self _ _)
          omega
      exact ih d (cur ++ [n0]) (curSize + diskSizeOf d n0) num
        (fun n hn => hmem n ((hmemeq n).mp hn))
        (fun n hn => hfresh n ((hmemeq n).mp hn)) hnd
        (fun n hn => hall n (List.mem_cons_of_mem _ hn))
        (by rw [hszf, hsum]; simp)
        hnewle z hz

theorem string_append_right_inj (p a b : String) (h : p ++ a = p ++ b) : a = b := by
  have hd : (p ++ a).data = (p ++ b).data := by rw [h]
  rw [String.data_append, String.data_append] at hd
  have h2 := List.append_cancel_left hd
  cases a
  cases b
  simp only at h2
  rw [h2]

theorem hasPrefixStr_append (p x : String) : hasPrefixStr p (p ++ x) = true := by
  simp only [hasPrefixStr, String.data_append, List.isPrefixOf_iff_prefix]
  exact List.prefix_append _ _

/-- Two incomparable strings: neither is a prefix of anything extending the
other. -/
theorem hasPrefixStr_append_ne (p q x : String)
    (h1 : ¬ (p.data <+: q.data)) (h2 : ¬ (q.data <+: p.data)) :
    hasPrefixStr p (q ++ x) = false := by
  rw [Bool.eq_false_iff]
  intro hpre
  simp only [hasPrefixStr, String.data_append, List.isPrefixOf_iff_prefix] at hpre
  rcases List.prefix_or_prefix_of_prefix hpre (List.prefix_append _ _) with h3 | h3
  · exact h1 h3
  · exact h2 h3

theorem rej_ne_ind (a b : String) : ("Rejoinable/" ++ a) ≠ ("Independent/" ++ b) := by
  intro h
  have h1 := hasPrefixStr_append "Rejoinable/" a
  rw [h, hasPrefixStr_append_ne "Rejoinable/" "Independent/" b (by decide) (by decide)] at h1
  simp at h1

theorem rej_ne_readme (a : String) : ("Rejoinable/" ++ a) ≠ "README.txt" := by
  intro h
  have h1 := hasPrefixStr_append "Rejoinable/" a
  rw [h] at h1
  have h2 : hasPrefixStr "Rejoinable/" "README.txt" = false := by decide
  rw [h2] at h1
  simp at h1

theorem ind_ne_readme (a : String) : ("Independent/" ++ a) ≠ "README.txt" := by
  intro h
  have h1 := hasPrefixStr_append "Independent/" a
  rw [h] at h1
  have h2 : hasPrefixStr "Independent/" "README.txt" = false := by decide
  rw [h2] at h1
  simp at h1

/-- Extraction is the identity when all arcnames are distinct. -/
theorem lastWins_eq_self : ∀ (l : List (String × DiskFile)),
    (l.map Prod.fst).Nodup → lastWins l = l := by
  intro l
  induction l with
  | nil => intro _; rfl
  | cons e rest ih =>
    intro h
    have h1 : e.1 ∉ rest.map Prod.fst := by
      simp only [List.map_cons, List.nodup_cons] at h
      exact h.1
    have h2 : rest.any (fun x => x.1 == e.1) = false := by
      rw [List.any_eq_false]
      intro x hx
      simp only [beq_iff_eq]
      intro he
      exact h1 (he ▸ List.mem_map_of_mem Prod.fst hx)
    simp only [lastWins, h2, Bool.false_eq_true, if_false]
    rw [ih (by simp only [List.map_cons, List.nodup_cons] at h; exact h.2)]

theorem reassembleF_congr : ∀ (n₁ n₂ : Nat) (l : List (String × Bytes)),
    l.length ≤ n₁ → l.length ≤ n₂ → reassembleF n₁ l = reassembleF n₂ l := by
  intro n₁
  induction n₁ with
  | zero =>
    intro n₂ l h₁ h₂
    have hl : l = [] := List.eq_nil_of_length_eq_zero (Nat.le_zero.mp h₁)
    subst hl
    cases n₂ <;> simp [reassembleF]
  | succ n ih =>
    intro n₂ l h₁ h₂
    cases l with
    | nil => cases n₂ <;> simp [reassembleF]
    | cons e rest =>
      cases n₂ with
      | zero => simp at h₂
      | succ m =>
        simp only [reassembleF]
        congr 1
        have hf : (rest.filter (fun x => !(x.1 == e.1))).length ≤ rest.length :=
          List.length_filter_le _ _
        simp only [List.length_cons] at h₁ h₂
        exact ih m _ (by omega) (by omega)

/-- The unfolding equation of reassembly. -/
theorem reassemble_cons (e : String × Bytes) (rest : List (String × Bytes)) :
    reassemble (e :: rest) =
      (e.1, e.2 ++ ((rest.filter (fun x => x.1 == e.1)).map (fun x => x.2)).flatten) ::
      reassemble (rest.filter (fun x => !(x.1 == e.1))) := by
  simp only [reassemble, List.length_cons, reassembleF]
  congr 1
  exact reassembleF_congr _ _ _ (List.length_filter_le _ _) (Nat.le_refl _)

/-- Reassembling a per-file grouped part list, with pairwise distinct file
names and at least one chunk per file, yields the concatenated chunks of
each file, in file order. -/
theorem reassemble_grouped (nameF : α → String) (chunksF : α → List Bytes) :
    ∀ (l : List α), (l.map nameF).Nodup → (∀ x ∈ l, chunksF x ≠ []) →
    reassemble (l.flatMap (fun x => (chunksF x).map (fun c => (nameF x, c)))) =
      l.map (fun x => (nameF x, (chunksF x).flatten)) := by
  intro l
  induction l with
  | nil =>
    intro _ _
    rfl
  | cons a l ih =>
    intro hnd hne
    have hothers : ∀ e ∈ l.flatMap (fun x => (chunksF x).map (fun c => (nameF x, c))),
        e.1 ≠ nameF a := by
      intro e he
      obtain ⟨x, hx, hex⟩ := List.mem_flatMap.mp he
      obtain ⟨c, _, rfl⟩ := List.mem_map.mp hex
      simp only
      intro hxa
      simp only [List.map_cons, List.nodup_cons] at hnd
      exact hnd.1 (hxa ▸ List.mem_map_of_mem nameF hx)
    obtain ⟨c, cs, hcs⟩ : ∃ c cs, chunksF a = c :: cs := by
      cases hca : chunksF a with
      | nil => exact absurd hca (hne a (List.mem_cons_self _ _))
      | cons c cs => exact ⟨c, cs, rfl⟩
    simp only [List.flatMap_cons, hcs, List.map_cons, List.cons_append]
    rw [reassemble_cons]
    have hfilter_match : (cs.map (fun c => (nameF a, c)) ++
        l.flatMap (fun x => (chunksF x).map (fun c => (nameF x, c)))).filter
          (fun x => x.1 == nameF a) = cs.map (fun c => (nameF a, c)) := by
      rw [List.filter_append]
      have e1 : (cs.map (fun c => (nameF a, c))).filter (fun x => x.1 == nameF a) =
          cs.map (fun c => (nameF a, c)) := by
        rw [List.filter_eq_self]
        intro x hx
        obtain ⟨c', _, rfl⟩ := List.mem_map.mp hx
        simp
      have e2 : (l.flatMap (fun x => (chunksF x).map (fun c => (nameF x, c)))).filter
          (fun x => x.1 == nameF a) = [] := by
        rw [List.filter_eq_nil_iff]
        intro e he
        simp only [beq_iff_eq]
        exact hothers e he
      rw [e1, e2, List.append_nil]
    have hfilter_rest : (cs.map (fun c => (nameF a, c)) ++
        l.flatMap (fun x => (chunksF x).map (fun c => (nameF x, c)))).filter
          (fun x => !(x.1 == nameF a)) =
        l.flatMap (fun x => (chunksF x).map (fun c => (nameF x, c))) := by
      rw [List.filter_append]
      have e1 : (cs.map (fun c => (nameF a, c))).filter (fun x => !(x.1 == nameF a)) = [] := by
        rw [List.filter_eq_nil_iff]
        intro e he
        obtain ⟨c', _, rfl⟩ := List.mem_map.mp he
        simp
      have e2 : (l.flatMap (fun x => (chunksF x).map (fun c => (nameF x, c)))).filter
          (fun x => !(x.1 == nameF a)) =
          l.flatMap (fun x => (chunksF x).map (fun c => (nameF x, c))) := by
        rw [List.filter_eq_self]
        intro e he
        simp only [Bool.not_eq_eq_eq_not, Bool.not_true, beq_eq_false_iff_ne, ne_eq]
        exact hothers e he
      rw [e1, e2, List.nil_append]
    rw [hfilter_match, hfilter_rest]
    rw [ih (by simp only [List.map_cons, List.nodup_cons] at hnd; exact hnd.2)
        (fun x hx => hne x (List.mem_cons_of_mem _ hx))]
    simp only [List.map_cons, hcs, List.flatten_cons]
    congr 2
    rw [List.map_map]
    have : ((fun x : String × Bytes => x.2) ∘ fun c => (nameF a, c)) = id := rfl
    rw [this, List.map_id]

/-- The grouping pass is a single pass in traversal order: concatenating the
produced groups restores the running group followed by the remaining input,
with no reordering and no sorting. -/
theorem group_files_flatten (T : Nat) (sz : α → Nat) :
    ∀ (files cur : List α) (curSize : Nat),
    (group_files T sz files cur curSize).flatten = cur ++ files := by
  intro files
  induction files with
  | nil =>
    intro cur curSize
    cases cur <;> simp [group_files]
  | cons f rest ih =>
    intro cur curSize
    by_cases hc : T < curSize + sz f ∧ cur.isEmpty = false
    · simp only [group_files, if_pos hc, List.flatten_cons, ih]
      simp
    · simp only [group_files, if_neg hc, ih]
      simp

/-- The grouping loop never flushes an empty group. -/
theorem group_files_ne_nil (T : Nat) (sz : α → Nat) :
    ∀ (files cur : List α) (curSize : Nat),
    ∀ g ∈ group_files T sz files cur curSize, g ≠ [] := by
  intro files
  induction files with
  | nil =>
    intro cur curSize g hg
    cases cur with
    | nil => simp [group_files] at hg
    | cons x xs =>
      simp only [group_files, List.isEmpty_cons, Bool.false_eq_true, if_false,
        List.mem_singleton] at hg
      subst hg
      simp
  | cons f rest ih =>
    intro cur curSize g hg
    by_cases hc : T < curSize + sz f ∧ cur.isEmpty = false
    · simp only [group_files, if_pos hc, List.mem_cons] at hg
      rcases hg with rfl | hg
      · intro he
        rw [he] at hc
        simp at hc
      · exact ih [f] (sz f) g hg
    · simp only [group_files, if_neg hc] at hg
      exact ih (cur ++ [f]) (curSize + sz f) g hg

/-- The error messages of the upload loop: exactly one `Invalid ZIP` notice
per `.zip`-named upload whose bytes do not form a valid archive, in upload
order; all other uploads report nothing. -/
theorem extractUploads_errs_aux : ∀ (ups : List Upload) (t : InputTree) (e : List String),
    (ups.foldl uploadStep (t, e)).2 =
      e ++ (ups.filter (fun u => endsWithZip u.name && u.parsedZip.isNone)).map
        (fun u => "Invalid ZIP: " ++ u.name) := by
  intro ups
  induction ups with
  | nil => intro t e; simp
  | cons u rest ih =>
    intro t e
    simp only [List.foldl_cons, List.filter_cons]
    by_cases hz : endsWithZip u.name
    · cases hp : u.parsedZip with
      | some entries =>
        have hstep : uploadStep (t, e) u =
            (((entries.foldl (fun t2 e2 => treeStore t2 e2.1 e2.2)
                (treeStore t u.name u.content)).filter (fun x => !(x.1 == u.name))), e) := by
          simp [uploadStep, hz, hp]
        rw [hstep, ih]
        simp [hz, hp]
      | none =>
        have hstep : uploadStep (t, e) u =
            (treeStore t u.name u.content, e ++ ["Invalid ZIP: " ++ u.name]) := by
          simp [uploadStep, hz, hp]
        rw [hstep, ih]
        simp [hz, hp]
    · have hstep : uploadStep (t, e) u = (treeStore t u.name u.content, e) := by
        simp [uploadStep, hz]
      rw [hstep, ih]
      simp [hz]

/-- The error messages of a whole upload pass. -/
theorem extractUploads_errs (ups : List Upload) :
    (extractUploads ups).2 =
      (ups.filter (fun u => endsWithZip u.name && u.parsedZip.isNone)).map
        (fun u => "Invalid ZIP: " ++ u.name) := by
  rw [extractUploads, extractUploads_errs_aux]
  simp

theorem runWalk_eq (T : Nat) (files : List FSFile) :
    runWalk T files =
      (Disk.storeList [] (files.flatMap (walkWrites T)),
       files.flatMap (fun f => if T < f.data.length then partNamesOf T f else []),
       (normalFiles T files).map FSFile.name) := by
  rw [runWalk, walkLoop_spec]
  simp

theorem runRejoinable_eq (T : Nat) (files : List FSFile) :
    runRejoinable T files =
      files.flatMap (fun f => if T < f.data.length then partNamesOf T f else []) := by
  rw [runRejoinable, runWalk_eq]

theorem runQueue_eq (T : Nat) (files : List FSFile) :
    runQueue T files = (normalFiles T files).map FSFile.name := by
  rw [runQueue, runWalk_eq]

theorem runWalk_disk_eq (T : Nat) (files : List FSFile) :
    (runWalk T files).1 = Disk.storeList [] (files.flatMap (walkWrites T)) := by
  rw [runWalk_eq]

theorem flatMap_append_perm (g h : α → List β) : ∀ (l : List α),
    (l.flatMap (fun x => g x ++ h x)).Perm (l.flatMap g ++ l.flatMap h) := by
  intro l
  induction l with
  | nil => simp
  | cons a l ih =>
    simp only [List.flatMap_cons, List.append_assoc]
    apply List.Perm.append_left
    have h1 : (h a ++ l.flatMap fun x => g x ++ h x).Perm
        (h a ++ (l.flatMap g ++ l.flatMap h)) := List.Perm.append_left (h a) ih
    have h2 : (h a ++ (l.flatMap g ++ l.flatMap h)).Perm
        (l.flatMap g ++ (h a ++ l.flatMap h)) := by
      rw [← List.append_assoc, ← List.append_assoc]
      exact List.Perm.append_right _ List.perm_append_comm
    exact h1.trans h2

theorem flatMap_big (T : Nat) (g : FSFile → List β) : ∀ (files : List FSFile),
    files.flatMap (fun f => if T < f.data.length then g f else []) =
      (bigFiles T files).flatMap g := by
  intro files
  induction files with
  | nil => simp [bigFiles]
  | cons f rest ih =>
    by_cases hb : T < f.data.length
    · simp only [List.flatMap_cons, if_pos hb, ih, bigFiles, List.filter_cons]
      simp [hb]
    · simp only [List.flatMap_cons, if_neg hb, ih, bigFiles, List.filter_cons]
      simp [hb]

theorem flatMap_normal (T : Nat) : ∀ (files : List FSFile),
    files.flatMap (fun f => if T < f.data.length then [] else [f.name]) =
      (normalFiles T files).map FSFile.name := by
  intro files
  induction files with
  | nil => simp [normalFiles]
  | cons f rest ih =>
    by_cases hb : T < f.data.length
    · have hnb : ¬ f.data.length ≤ T := by omega
      simp only [List.flatMap_cons, if_pos hb, ih, normalFiles, List.filter_cons]
      simp [hnb]
    · have hnb : f.data.length ≤ T := by omega
      simp only [List.flatMap_cons, if_neg hb, ih, normalFiles, List.filter_cons]
      simp [hnb]

theorem walkWrites_keys (T : Nat) (f : FSFile) :
    (walkWrites T f).map Prod.fst =
      (if T < f.data.length then partNamesOf T f else []) ++
      (if T < f.data.length then [] else [f.name]) := by
  by_cases hb : T < f.data.length <;> simp [walkWrites, hb, partNamesOf]

theorem walkKeys_perm (T : Nat) (files : List FSFile) :
    ((files.flatMap (walkWrites T)).map Prod.fst).Perm
      (runRejoinable T files ++ runQueue T files) := by
  rw [List.map_flatMap, runRejoinable_eq, runQueue_eq]
  have h1 : files.flatMap (fun f => (walkWrites T f).map Prod.fst) =
      files.flatMap (fun f => (if T < f.data.length then partNamesOf T f else []) ++
        (if T < f.data.length then [] else [f.name])) := by
    simp only [walkWrites_keys]
  rw [h1]
  refine (flatMap_append_perm _ _ files).trans ?_
  rw [flatMap_normal]

theorem runWalk_disk_get (T : Nat) (files : List FSFile) (n : String) (v : DiskFile)
    (hmem : (n, v) ∈ files.flatMap (walkWrites T))
    (hnd : (runRejoinable T files ++ runQueue T files).Nodup) :
    Disk.get? (runWalk T files).1 n = some v := by
  have hkeys : ((files.flatMap (walkWrites T)).map Prod.fst).Nodup :=
    (walkKeys_perm T files).symm.nodup hnd
  rw [runWalk_disk_eq]
  exact Disk.get?_storeList_mem [] _ n v hmem hkeys

theorem find?_name_eq : ∀ (l : List FSFile) (g : FSFile), g ∈ l →
    (l.map FSFile.name).Nodup → l.find? (fun f => f.name == g.name) = some g := by
  intro l
  induction l with
  | nil =>
    intro g hg
    simp at hg
  | cons a l ih =>
    intro g hg hnd
    rcases List.mem_cons.mp hg with rfl | hg'
    · exact List.find?_cons_of_pos _ (by simp)
    · simp only [List.map_cons, List.nodup_cons] at hnd
      have hne : ¬ ((a.name == g.name) = true) := by
        simp only [beq_iff_eq]
        intro he
        exact hnd.1 (he ▸ List.mem_map_of_mem FSFile.name hg')
      have hbf : (a.name == g.name) = false := Bool.eq_false_iff.mpr hne
      rw [show List.find? (fun f => f.name == g.name) (a :: l) =
          List.find? (fun f => f.name == g.name) l from by simp [List.find?_cons, hbf]]
      exact ih g hg' hnd.2

theorem normalData_eq (T : Nat) (files : List FSFile) (g : FSFile)
    (hg : g ∈ normalFiles T files) (hnd : (files.map FSFile.name).Nodup) :
    normalData T files g.name = g.data := by
  have hnd2 : ((files.filter (fun f => decide (f.data.length ≤ T))).map FSFile.name).Nodup :=
    hnd.sublist ((List.filter_sublist files).map FSFile.name)
  have hg2 : g ∈ files.filter (fun f => decide (f.data.length ≤ T)) := hg
  rw [normalData, find?_name_eq _ g hg2 hnd2]

theorem flatMap_nil_of (f : α → List β) : ∀ (l : List α),
    (∀ x ∈ l, f x = []) → l.flatMap f = [] := by
  intro l
  induction l with
  | nil => intro _; rfl
  | cons a l ih =>
    intro h
    simp only [List.flatMap_cons, h a (List.mem_cons_self _ _), List.nil_append]
    exact ih (fun x hx => h x (List.mem_cons_of_mem _ hx))

theorem filter_not_big (T : Nat) (files : List FSFile) :
    files.filter (fun f => !decide (T < f.data.length)) = normalFiles T files := by
  rw [normalFiles]
  apply List.filter_congr
  intro f _
  by_cases h : T < f.data.length
  · have h2 : ¬ (f.data.length ≤ T) := by omega
    simp [h, h2]
  · have h2 : f.data.length ≤ T := by omega
    simp [h, h2]

theorem flatMap_congr_mem (f g : α → List β) : ∀ (l : List α),
    (∀ x ∈ l, f x = g x) → l.flatMap f = l.flatMap g := by
  intro l
  induction l with
  | nil => intro _; rfl
  | cons a l ih =>
    intro h
    simp only [List.flatMap_cons, h a (List.mem_cons_self _ _),
      ih (fun x hx => h x (List.mem_cons_of_mem _ hx))]

/-- The round trip of one run, proved under the name-distinctness hypotheses:
positive threshold, pairwise distinct file names, and no collision among the
names the run writes to the output directory (the rejoinable part names, the
flat copies of the normal files, and the independent archive names). -/
theorem process_roundtrip (T : Nat) (files : List FSFile)
    (hT : 0 < T)
    (hnames : (files.map FSFile.name).Nodup)
    (hout : ((runRejoinable T files ++ runQueue T files) ++ runZips T files).Nodup) :
    (recover (process T files)).Perm (files.map (fun f => (f.name, f.data))) := by
  have hwalknd : (runRejoinable T files ++ runQueue T files).Nodup := hout.of_append_left
  have hznd : (runZips T files).Nodup := hout.of_append_right
  have hdisj : ∀ a ∈ runRejoinable T files ++ runQueue T files, a ∉ runZips T files :=
    fun a ha => List.disjoint_of_nodup_append hout ha
  have hrejnd : (runRejoinable T files).Nodup := hwalknd.of_append_left
  -- the grouping pass, characterized
  have hmem : ∀ n, n ∈ runQueue T files ++ [] →
      Disk.get? (runWalk T files).1 n = some (DiskFile.raw (normalData T files n)) := by
    intro n hn
    rw [List.append_nil, runQueue_eq] at hn
    obtain ⟨g, hg, rfl⟩ := List.mem_map.mp hn
    rw [normalData_eq T files g hg hnames]
    apply runWalk_disk_get T files g.name (DiskFile.raw g.data) _ hwalknd
    apply List.mem_flatMap.mpr
    refine ⟨g, List.mem_of_mem_filter hg, ?_⟩
    have hb : ¬ T < g.data.length := by
      have h1 := List.of_mem_filter hg
      simp only [decide_eq_true_eq] at h1
      omega
    simp [walkWrites, hb]
  have hfresh : ∀ n, n ∈ runQueue T files ++ [] →
      n ∉ (groupWrite T (runQueue T files) (runWalk T files).1 [] 0 1).2 := by
    intro n hn
    rw [List.append_nil] at hn
    exact hdisj n (List.mem_append.mpr (Or.inr hn))
  have hgnd : (groupWrite T (runQueue T files) (runWalk T files).1 [] 0 1).2.Nodup := hznd
  obtain ⟨hA, hB⟩ := groupWrite_spec T (normalData T files) (runQueue T files)
    (runWalk T files).1 [] 0 1 hmem hfresh hgnd
  -- part archive lookups in the final output directory
  have hpart : ∀ f ∈ bigFiles T files, ∀ p ∈ splitLoop T 1 f.data,
      Disk.getD (groupWrite T (runQueue T files) (runWalk T files).1 [] 0 1).1
        (partName f.name p.1) = DiskFile.zip [(f.name, p.2)] := by
    intro f hf p hp
    have hb : T < f.data.length := by
      have h1 := List.of_mem_filter hf
      simpa using h1
    have hmem1 : (partName f.name p.1, DiskFile.zip [(f.name, p.2)]) ∈
        files.flatMap (walkWrites T) := by
      apply List.mem_flatMap.mpr
      refine ⟨f, List.mem_of_mem_filter hf, ?_⟩
      simp only [walkWrites, if_pos hb, partWrites]
      exact List.mem_map.mpr ⟨p, hp, rfl⟩
    have hin_rej : partName f.name p.1 ∈ runRejoinable T files := by
      rw [runRejoinable_eq, flatMap_big T (partNamesOf T)]
      apply List.mem_flatMap.mpr
      refine ⟨f, hf, ?_⟩
      simp only [partNamesOf, partWrites, List.map_map]
      exact List.mem_map.mpr ⟨p, hp, rfl⟩
    have hnotz : partName f.name p.1 ∉ runZips T files :=
      hdisj _ (List.mem_append.mpr (Or.inl hin_rej))
    rw [Disk.getD, hB _ hnotz, runWalk_disk_get T files _ _ hmem1 hwalknd]
    rfl
  -- the top-level archive, expanded
  have hproc : process T files = create_final_zip (runRejoinable T files) (runZips T files)
      (groupWrite T (runQueue T files) (runWalk T files).1 [] 0 1).1 := rfl
  rw [hproc, create_final_zip_eq]
  -- extraction is the identity: all arcnames are distinct
  have hinj_rej : Function.Injective (fun z => "Rejoinable/" ++ z) :=
    fun a b h => string_append_right_inj _ a b h
  have hinj_ind : Function.Injective (fun z => "Independent/" ++ z) :=
    fun a b h => string_append_right_inj _ a b h
  have hfinnd : ((((runRejoinable T files).map (fun z =>
        ("Rejoinable/" ++ z,
          Disk.getD (groupWrite T (runQueue T files) (runWalk T files).1 [] 0 1).1 z)) ++
      (runZips T files).map (fun z =>
        ("Independent/" ++ z,
          Disk.getD (groupWrite T (runQueue T files) (runWalk T files).1 [] 0 1).1 z)) ++
      [("README.txt", DiskFile.raw readmeBytes)]).map Prod.fst)).Nodup := by
    simp only [List.map_append, List.map_map]
    rw [List.nodup_append, List.nodup_append]
    refine ⟨⟨?_, ?_, ?_⟩, ?_, ?_⟩
    · have h1 : ((fun e : String × DiskFile => e.1) ∘ (fun z =>
          (("Rejoinable/" ++ z : String),
            Disk.getD (groupWrite T (runQueue T files) (runWalk T files).1 [] 0 1).1 z))) =
          fun z => "Rejoinable/" ++ z := rfl
      rw [h1]
      exact hrejnd.map hinj_rej
    · have h1 : ((fun e : String × DiskFile => e.1) ∘ (fun z =>
          (("Independent/" ++ z : String),
            Disk.getD (groupWrite T (runQueue T files) (runWalk T files).1 [] 0 1).1 z))) =
          fun z => "Independent/" ++ z := rfl
      rw [h1]
      exact hznd.map hinj_ind
    · intro a ha hb
      obtain ⟨x, _, rfl⟩ := List.mem_map.mp ha
      obtain ⟨y, _, hy⟩ := List.mem_map.mp hb
      exact rej_ne_ind x y hy.symm
    · simp
    · intro a ha hb
      simp only [List.map_cons, List.map_nil, List.mem_singleton] at hb
      subst hb
      rcases List.mem_append.mp ha with h1 | h1
      · obtain ⟨x, _, hx⟩ := List.mem_map.mp h1
        exact rej_ne_readme x hx
      · obtain ⟨x, _, hx⟩ := List.mem_map.mp h1
        exact ind_ne_readme x hx
  rw [recover, lastWins_eq_self _ hfinnd]
  -- the rejoinable selection
  have hsel_rej : (((runRejoinable T files).map (fun z =>
        ("Rejoinable/" ++ z,
          Disk.getD (groupWrite T (runQueue T files) (runWalk T files).1 [] 0 1).1 z)) ++
      (runZips T files).map (fun z =>
        ("Independent/" ++ z,
          Disk.getD (groupWrite T (runQueue T files) (runWalk T files).1 [] 0 1).1 z)) ++
      [("README.txt", DiskFile.raw readmeBytes)]).flatMap
        (fun e => if hasPrefixStr "Rejoinable/" e.1 then DiskFile.entriesOf e.2 else [])) =
      (bigFiles T files).flatMap
        (fun f => (splitLoop T 1 f.data).map (fun p => (f.name, p.2))) := by
    rw [List.flatMap_append, List.flatMap_append]
    have h2 : ((runZips T files).map (fun z =>
        ("Independent/" ++ z,
          Disk.getD (groupWrite T (runQueue T files) (runWalk T files).1 [] 0 1).1 z))).flatMap
          (fun e => if hasPrefixStr "Rejoinable/" e.1 then DiskFile.entriesOf e.2 else []) = [] := by
      apply flatMap_nil_of
      intro x hx
      obtain ⟨z, _, rfl⟩ := List.mem_map.mp hx
      rw [if_neg]
      rw [hasPrefixStr_append_ne "Rejoinable/" "Independent/" z (by decide) (by decide)]
      simp
    have h3 : ([(("README.txt" : String), DiskFile.raw readmeBytes)]).flatMap
        (fun e => if hasPrefixStr "Rejoinable/" e.1 then DiskFile.entriesOf e.2 else []) = [] := by
      simp only [List.flatMap_cons, List.flatMap_nil, List.append_nil]
      rw [if_neg]
      have : hasPrefixStr "Rejoinable/" "README.txt" = false := by decide
      simp [this]
    rw [h2, h3, List.append_nil, List.append_nil]
    rw [List.flatMap_map]
    have h4 : (runRejoinable T files).flatMap (fun z =>
        if hasPrefixStr "Rejoinable/" ("Rejoinable/" ++ z) then
          DiskFile.entriesOf
            (Disk.getD (groupWrite T (runQueue T files) (runWalk T files).1 [] 0 1).1 z)
        else []) = (runRejoinable T files).flatMap (fun z =>
          DiskFile.entriesOf
            (Disk.getD (groupWrite T (runQueue T files) (runWalk T files).1 [] 0 1).1 z)) := by
      apply flatMap_congr_mem
      intro z _
      rw [if_pos]
      rw [hasPrefixStr_append]
    rw [h4, runRejoinable_eq, flatMap_big T (partNamesOf T), List.flatMap_assoc]
    apply flatMap_congr_mem
    intro f hf
    have h5 : partNamesOf T f = (splitLoop T 1 f.data).map (fun p => partName f.name p.1) := by
      simp [partNamesOf, partWrites, List.map_map]
    rw [h5, List.flatMap_map]
    have h6 : (splitLoop T 1 f.data).flatMap (fun p =>
        DiskFile.entriesOf
          (Disk.getD (groupWrite T (runQueue T files) (runWalk T files).1 [] 0 1).1
            (partName f.name p.1))) =
        (splitLoop T 1 f.data).flatMap (fun p => [(f.name, p.2)]) := by
      apply flatMap_congr_mem
      intro p hp
      rw [hpart f hf p hp]
      rfl
    rw [h6]
    exact (List.map_eq_flatMap _ _).symm
  -- the independent selection
  have hsel_ind : (((runRejoinable T files).map (fun z =>
        ("Rejoinable/" ++ z,
          Disk.getD (groupWrite T (runQueue T files) (runWalk T files).1 [] 0 1).1 z)) ++
      (runZips T files).map (fun z =>
        ("Independent/" ++ z,
          Disk.getD (groupWrite T (runQueue T files) (runWalk T files).1 [] 0 1).1 z)) ++
      [("README.txt", DiskFile.raw readmeBytes)]).flatMap
        (fun e => if hasPrefixStr "Independent/" e.1 then DiskFile.entriesOf e.2 else [])) =
      (runQueue T files).map (fun n => (n, normalData T files n)) := by
    rw [List.flatMap_append, List.flatMap_append]
    have h1 : ((runRejoinable T files).map (fun z =>
        ("Rejoinable/" ++ z,
          Disk.getD (groupWrite T (runQueue T files) (runWalk T files).1 [] 0 1).1 z))).flatMap
          (fun e => if hasPrefixStr "Independent/" e.1 then DiskFile.entriesOf e.2 else []) = [] := by
      apply flatMap_nil_of
      intro x hx
      obtain ⟨z, _, rfl⟩ := List.mem_map.mp hx
      rw [if_neg]
      rw [hasPrefixStr_append_ne "Independent/" "Rejoinable/" z (by decide) (by decide)]
      simp
    have h3 : ([(("README.txt" : String), DiskFile.raw readmeBytes)]).flatMap
        (fun e => if hasPrefixStr "Independent/" e.1 then DiskFile.entriesOf e.2 else []) = [] := by
      simp only [List.flatMap_cons, List.flatMap_nil, List.append_nil]
      rw [if_neg]
      have : hasPrefixStr "Independent/" "README.txt" = false := by decide
      simp [this]
    rw [h1, h3, List.append_nil, List.nil_append]
    rw [List.flatMap_map]
    have h4 : (runZips T files).flatMap (fun z =>
        if hasPrefixStr "Independent/" ("Independent/" ++ z) then
          DiskFile.entriesOf
            (Disk.getD (groupWrite T (runQueue T files) (runWalk T files).1 [] 0 1).1 z)
        else []) = (runZips T files).flatMap (fun z =>
          DiskFile.entriesOf
            (Disk.getD (groupWrite T (runQueue T files) (runWalk T files).1 [] 0 1).1 z)) := by
      apply flatMap_congr_mem
      intro z _
      rw [if_pos]
      rw [hasPrefixStr_append]
    rw [h4]
    rw [show runZips T files = (groupWrite T (runQueue T files) (runWalk T files).1 [] 0 1).2
      from rfl]
    rw [hA]
    simp
  rw [hsel_rej, hsel_ind]
  -- reassembly restores the oversized files
  have hbignd : ((bigFiles T files).map FSFile.name).Nodup :=
    hnames.sublist ((List.filter_sublist files).map FSFile.name)
  have hbigne : ∀ f ∈ bigFiles T files, (splitLoop T 1 f.data).map Prod.snd ≠ [] := by
    intro f hf
    have hb : T < f.data.length := by simpa using List.of_mem_filter hf
    have hd : f.data ≠ [] := by
      intro he
      rw [he] at hb
      simp at hb
    rw [splitLoop_eq, if_neg (by rintro (h1 | h1); exacts [hd h1, by omega])]
    simp
  have hshape : (bigFiles T files).flatMap
      (fun f => (splitLoop T 1 f.data).map (fun p => (f.name, p.2))) =
      (bigFiles T files).flatMap
        (fun f => ((splitLoop T 1 f.data).map Prod.snd).map (fun c => (f.name, c))) := by
    apply flatMap_congr_mem
    intro f _
    rw [List.map_map]
    rfl
  rw [hshape, reassemble_grouped FSFile.name (fun f => (splitLoop T 1 f.data).map Prod.snd)
    (bigFiles T files) hbignd hbigne]
  have hbig_eval : (bigFiles T files).map
      (fun f => (f.name, ((splitLoop T 1 f.data).map Prod.snd).flatten)) =
      (bigFiles T files).map (fun f => (f.name, f.data)) := by
    apply List.map_congr_left
    intro f _
    rw [splitLoop_flatten T hT]
  rw [hbig_eval]
  -- the independent archives extract to the normal files
  have hqueue : (runQueue T files).map (fun n => (n, normalData T files n)) =
      (normalFiles T files).map (fun f => (f.name, f.data)) := by
    rw [runQueue_eq, List.map_map]
    apply List.map_congr_left
    intro g hg
    simp only [Function.comp_apply]
    rw [normalData_eq T files g hg hnames]
  rw [hqueue]
  -- the two classes together are a permutation of the input
  have hp := List.filter_append_perm (fun f => decide (T < f.data.length)) files
  rw [filter_not_big] at hp
  have hp2 : (bigFiles T files ++ normalFiles T files).Perm files := hp
  have hp3 := hp2.map (fun f => (f.name, f.data))
  rw [List.map_append] at hp3
  exact hp3

/-- A run's top-level archive always ends with the README entry. -/
theorem process_getLast (T : Nat) (files : List FSFile) :
    (process T files).getLast? = some ("README.txt", DiskFile.raw readmeBytes) := by
  rw [show process T files = create_final_zip (split_folder_intelligently T files).2.1
      (split_folder_intelligently T files).2.2 (split_folder_intelligently T files).1 from rfl,
    create_final_zip_eq]
  exact List.getLast?_concat _

/-- C1: for every threshold `T > 0`, the read loop of `split_large_file`
produces exactly `ceil(S / T)` parts, numbered consecutively from 1, where
the `j`-th part (0-based) holds the bytes from `j * T` up to `(j + 1) * T`
clipped to the file end, and concatenating the parts' payloads in ascending
order restores the file; in particular a 25-byte file at threshold 10 gives
3 parts of sizes 10, 10, 5 whose concatenation restores the 25 bytes. -/
theorem claim_C1_split_parts :
    (∀ (T : Nat) (f : FSFile) (d : Disk), 0 < T →
      (split_large_file T f d).2.length = (f.data.length + T - 1) / T ∧
      (splitLoop T 1 f.data).map Prod.fst =
        List.range' 1 ((f.data.length + T - 1) / T) ∧
      (∀ j (h : j < (splitLoop T 1 f.data).length),
        (splitLoop T 1 f.data)[j] = (1 + j, (f.data.drop (j * T)).take T)) ∧
      ((splitLoop T 1 f.data).map Prod.snd).flatten = f.data) ∧
    (splitLoop 10 1 (List.range 25)).map (fun p => p.2.length) = [10, 10, 5] ∧
    ((splitLoop 10 1 (List.range 25)).map Prod.snd).flatten = List.range 25 := by
  refine ⟨?_, ?_, ?_⟩
  · intro T f d hT
    refine ⟨?_, ?_, ?_, ?_⟩
    · show (partNamesOf T f).length = _
      rw [partNamesOf, partWrites, List.length_map, List.length_map, splitLoop_length T hT]
    · rw [splitLoop_numbers, splitLoop_length T hT]
    · exact fun j h => splitLoop_getElem T hT f.data 1 j h
    · exact splitLoop_flatten T hT f.data 1
  · decide
  · decide

theorem claim_C1_split_parts_witness :
    0 < 10 ∧
    ((splitLoop 10 1 (List.range 25)).map Prod.snd).flatten = List.range 25 :=
  ⟨by decide,
   (claim_C1_split_parts.1 10 ⟨"a.bin", List.range 25⟩ [] (by decide)).2.2.2⟩

/-- C2 is false as stated: with threshold 100 and the two normal files
`big.txt` (99 bytes) and `independent_part1.zip` (60 bytes), both within the
threshold, flushing the first group stores an archive named
`independent_part1.zip`, overwriting the member's flat copy of the same
name; the final flush then packs the overwritten archive's bytes, so the
produced archive `independent_part2.zip` has total payload 106 > 100. -/
theorem claim_C2_group_size_counterexample :
    (∀ f ∈ ([⟨"big.txt", List.replicate 99 0⟩,
             ⟨"independent_part1.zip", List.replicate 60 1⟩] : List FSFile),
      f.data.length ≤ 100) ∧
    "independent_part2.zip" ∈ (split_folder_intelligently 100
        [⟨"big.txt", List.replicate 99 0⟩,
         ⟨"independent_part1.zip", List.replicate 60 1⟩]).2.2 ∧
    100 < ((DiskFile.entriesOf (Disk.getD (split_folder_intelligently 100
        [⟨"big.txt", List.replicate 99 0⟩,
         ⟨"independent_part1.zip", List.replicate 60 1⟩]).1
        "independent_part2.zip")).map (fun e => e.2.length)).sum := by
  refine ⟨by decide, by decide, by decide⟩

/-- C2 amended: when every file fits the threshold, and additionally the
file names are pairwise distinct and no queued file name collides with a
produced `independent_part{k}.zip` archive name (so no flat copy is
overwritten by a flushed archive), every produced independent archive's
total entry payload is at most the threshold — proved on the disk-threaded
grouping loop of `split_folder_intelligently`. -/
theorem claim_C2_group_size_bound (T : Nat) (files : List FSFile)
    (hall : ∀ f ∈ files, f.data.length ≤ T)
    (hnames : (files.map FSFile.name).Nodup)
    (hout : (runQueue T files ++ runZips T files).Nodup) :
    ∀ z ∈ runZips T files,
      ((DiskFile.entriesOf (Disk.getD (split_folder_intelligently T files).1 z)).map
        (fun e => e.2.length)).sum ≤ T := by
  have hbignil : bigFiles T files = [] := by
    rw [bigFiles, List.filter_eq_nil_iff]
    intro f hf
    simp only [decide_eq_true_eq]
    have := hall f hf
    omega
  have hrejnil : runRejoinable T files = [] := by
    rw [runRejoinable_eq, flatMap_big T (partNamesOf T) files, hbignil]
    rfl
  have hwalknd : (runRejoinable T files ++ runQueue T files).Nodup := by
    rw [hrejnil, List.nil_append]
    exact hout.of_append_left
  have hmem : ∀ n, n ∈ runQueue T files ++ [] →
      Disk.get? (runWalk T files).1 n = some (DiskFile.raw (normalData T files n)) := by
    intro n hn
    rw [List.append_nil, runQueue_eq] at hn
    obtain ⟨g, hg, rfl⟩ := List.mem_map.mp hn
    rw [normalData_eq T files g hg hnames]
    apply runWalk_disk_get T files g.name (DiskFile.raw g.data) _ hwalknd
    apply List.mem_flatMap.mpr
    refine ⟨g, List.mem_of_mem_filter hg, ?_⟩
    have hb : ¬ T < g.data.length := by
      have h1 := List.of_mem_filter hg
      simp only [decide_eq_true_eq] at h1
      omega
    simp [walkWrites, hb]
  have hfresh : ∀ n, n ∈ runQueue T files ++ [] →
      n ∉ (groupWrite T (runQueue T files) (runWalk T files).1 [] 0 1).2 := by
    intro n hn
    rw [List.append_nil] at hn
    exact List.disjoint_of_nodup_append hout hn
  have hgnd : (groupWrite T (runQueue T files) (runWalk T files).1 [] 0 1).2.Nodup :=
    hout.of_append_right
  have hallv : ∀ n, n ∈ runQueue T files → (normalData T files n).length ≤ T := by
    intro n hn
    rw [runQueue_eq] at hn
    obtain ⟨g, hg, rfl⟩ := List.mem_map.mp hn
    rw [normalData_eq T files g hg hnames]
    exact hall g (List.mem_of_mem_filter hg)
  intro z hz
  exact groupWrite_sum_le T (normalData T files) (runQueue T files) (runWalk T files).1
    [] 0 1 hmem hfresh hgnd (fun n hn => hallv n hn) (by simp) (Nat.zero_le T) z hz

theorem claim_C2_group_size_bound_witness :
    (∀ f ∈ ([⟨"a.txt", List.replicate 99 0⟩, ⟨"b.txt", List.replicate 60 1⟩] : List FSFile),
      f.data.length ≤ 100) ∧
    ((([⟨"a.txt", List.replicate 99 0⟩, ⟨"b.txt", List.replicate 60 1⟩] : List FSFile)).map
      FSFile.name).Nodup ∧
    (runQueue 100 [⟨"a.txt", List.replicate 99 0⟩, ⟨"b.txt", List.replicate 60 1⟩] ++
      runZips 100 [⟨"a.txt", List.replicate 99 0⟩, ⟨"b.txt", List.replicate 60 1⟩]).Nodup ∧
    "independent_part1.zip" ∈
      runZips 100 [⟨"a.txt", List.replicate 99 0⟩, ⟨"b.txt", List.replicate 60 1⟩] ∧
    ((DiskFile.entriesOf (Disk.getD (split_folder_intelligently 100
        [⟨"a.txt", List.replicate 99 0⟩, ⟨"b.txt", List.replicate 60 1⟩]).1
        "independent_part1.zip")).map (fun e => e.2.length)).sum ≤ 100 :=
  ⟨by decide, by decide, by decide, by decide,
   claim_C2_group_size_bound 100
     [⟨"a.txt", List.replicate 99 0⟩, ⟨"b.txt", List.replicate 60 1⟩]
     (by decide) (by decide) (by decide) "independent_part1.zip" (by decide)⟩

/-- C5: the grouping is a single greedy pass in traversal order with no
sorting — flattening the produced groups restores the input order exactly —
and with threshold 100 and three files of size 40 it produces exactly two
independent archives, the first holding the first two files and the second
holding the third, both in the pure loop and in the full pipeline. -/
theorem claim_C5_greedy_grouping :
    (∀ (α : Type) (T : Nat) (sz : α → Nat) (files : List α),
      (group_independent T sz files).flatten = files) ∧
    group_independent 100 (fun p : String × Nat => p.2)
        [("f1", 40), ("f2", 40), ("f3", 40)] =
      [[("f1", 40), ("f2", 40)], [("f3", 40)]] ∧
    (split_folder_intelligently 100
        [⟨"f1.txt", List.replicate 40 7⟩, ⟨"f2.txt", List.replicate 40 8⟩,
         ⟨"f3.txt", List.replicate 40 9⟩]).2.2 =
      ["independent_part1.zip", "independent_part2.zip"] ∧
    Disk.getD (split_folder_intelligently 100
        [⟨"f1.txt", List.replicate 40 7⟩, ⟨"f2.txt", List.replicate 40 8⟩,
         ⟨"f3.txt", List.replicate 40 9⟩]).1 "independent_part1.zip" =
      DiskFile.zip [("f1.txt", List.replicate 40 7), ("f2.txt", List.replicate 40 8)] ∧
    Disk.getD (split_folder_intelligently 100
        [⟨"f1.txt", List.replicate 40 7⟩, ⟨"f2.txt", List.replicate 40 8⟩,
         ⟨"f3.txt", List.replicate 40 9⟩]).1 "independent_part2.zip" =
      DiskFile.zip [("f3.txt", List.replicate 40 9)] := by
  refine ⟨?_, by decide, by decide, by decide, by decide⟩
  intro α T sz files
  rw [group_independent, group_files_flatten]
  rfl

/-- C10: the grouping pass never produces an empty independent archive. -/
theorem claim_C10_no_empty_archive (T : Nat) (sz : α → Nat) (files : List α) :
    ∀ g ∈ group_independent T sz files, g ≠ [] :=
  fun g hg => group_files_ne_nil T sz files [] 0 g hg

theorem claim_C10_no_empty_archive_witness :
    ([("a", 1)] ∈ group_independent 3 Prod.snd [("a", 1)]) ∧
    ([("a", 1)] : List (String × Nat)) ≠ [] :=
  ⟨by decide, claim_C10_no_empty_archive 3 Prod.snd [("a", 1)] [("a", 1)] (by decide)⟩

/-- C7: the top-level archive places every rejoinable chunk under
`Rejoinable/` and every independent chunk under `Independent/`, each included
with its disk content unchanged, ends with the static README entry, contains
nothing else, and has exactly one entry per chunk plus the README. -/
theorem claim_C7_final_layout (r i : List String) (d : Disk) :
    (create_final_zip r i d).length = r.length + i.length + 1 ∧
    (∀ z ∈ r, ("Rejoinable/" ++ z, Disk.getD d z) ∈ create_final_zip r i d) ∧
    (∀ z ∈ i, ("Independent/" ++ z, Disk.getD d z) ∈ create_final_zip r i d) ∧
    (create_final_zip r i d).getLast? = some ("README.txt", DiskFile.raw readmeBytes) ∧
    readmeBytes = readmeText.data.map Char.toNat ∧
    (∀ e ∈ create_final_zip r i d,
      (∃ z ∈ r, e = ("Rejoinable/" ++ z, Disk.getD d z)) ∨
      (∃ z ∈ i, e = ("Independent/" ++ z, Disk.getD d z)) ∨
      e = ("README.txt", DiskFile.raw readmeBytes)) := by
  refine ⟨?_, ?_, ?_, ?_, rfl, ?_⟩
  · rw [create_final_zip_eq]
    simp
    omega
  · intro z hz
    rw [create_final_zip_eq]
    exact List.mem_append.mpr (Or.inl (List.mem_append.mpr
      (Or.inl (List.mem_map_of_mem _ hz))))
  · intro z hz
    rw [create_final_zip_eq]
    exact List.mem_append.mpr (Or.inl (List.mem_append.mpr
      (Or.inr (List.mem_map_of_mem _ hz))))
  · rw [create_final_zip_eq]
    exact List.getLast?_concat _
  · intro e he
    rw [create_final_zip_eq] at he
    rcases List.mem_append.mp he with h1 | h1
    · rcases List.mem_append.mp h1 with h2 | h2
      · obtain ⟨z, hz, rfl⟩ := List.mem_map.mp h2
        exact Or.inl ⟨z, hz, rfl⟩
      · obtain ⟨z, hz, rfl⟩ := List.mem_map.mp h2
        exact Or.inr (Or.inl ⟨z, hz, rfl⟩)
    · simp only [List.mem_singleton] at h1
      exact Or.inr (Or.inr h1)

theorem claim_C7_final_layout_witness :
    ("x.zip" ∈ ["x.zip"]) ∧
    ("Rejoinable/" ++ "x.zip",
      Disk.getD [("x.zip", DiskFile.raw [1])] "x.zip") ∈
      create_final_zip ["x.zip"] ["y.zip"] [("x.zip", DiskFile.raw [1])] :=
  ⟨by decide,
   (claim_C7_final_layout ["x.zip"] ["y.zip"] [("x.zip", DiskFile.raw [1])]).2.1
     "x.zip" (by decide)⟩

/-- C8: on an empty input tree the run produces no rejoinable parts and no
independent archives, and the top-level archive holds exactly the README. -/
theorem claim_C8_empty_input (T : Nat) :
    (split_folder_intelligently T []).2.1 = [] ∧
    (split_folder_intelligently T []).2.2 = [] ∧
    process T [] = [("README.txt", DiskFile.raw readmeBytes)] :=
  ⟨rfl, rfl, rfl⟩

/-- C6: a failed parse of the size text is caught: the error flag is set, the
threshold falls back to the fixed default `5 * 1024 * 1024`, and a run with
that default still completes, its top-level archive ending with the README
entry.  (`humanfriendly.parse_size` is external; it is abstracted by its
`Option Nat` outcome, `none` for unparseable text such as `abc`.) -/
theorem claim_C6_invalid_threshold :
    resolve_chunk_size none = (5 * 1024 * 1024, true) ∧
    (∀ (parsed : Option Nat), parsed.isNone →
      resolve_chunk_size parsed = (5 * 1024 * 1024, true)) ∧
    (∀ (files : List FSFile),
      (process (resolve_chunk_size none).1 files).getLast? =
        some ("README.txt", DiskFile.raw readmeBytes)) := by
  refine ⟨rfl, ?_, ?_⟩
  · intro parsed hp
    cases parsed with
    | none => rfl
    | some n => simp at hp
  · intro files
    exact process_getLast _ files

theorem claim_C6_invalid_threshold_witness :
    (none : Option Nat).isNone = true ∧
    resolve_chunk_size none = (5 * 1024 * 1024, true) :=
  ⟨by decide, claim_C6_invalid_threshold.2.1 none (by decide)⟩

theorem partName_ne_copyPath (name : String) (i : Nat) :
    partName name i ≠ stemOf name ++ "/" ++ name := by
  intro h
  have hd := congrArg String.data h
  simp only [partName, String.data_append, List.append_assoc] at hd
  have h2 := List.append_cancel_left hd
  simp only [List.cons_append, List.nil_append] at h2
  injection h2 with h3 _
  exact absurd h3 (by decide)

theorem copyPath_ne_name (stem name : String) : name ≠ stem ++ "/" ++ name := by
  intro h
  have hl := congrArg String.length h
  rw [String.length_append, String.length_append] at hl
  have h1 : ("/" : String).length = 1 := by decide
  rw [h1] at hl
  omega

/-- C9: splitting an oversized file first creates a folder named after the
stem next to the source file — inside the input tree the walk traverses —
and copies the full original file into it, before any part archive is
written; every later effect of the split is an output-directory write; at
least one part is written; and the copy's path is referenced by no produced
part archive, neither as an archive name nor as an entry name. -/
theorem claim_C9_input_copy (T : Nat) (f : FSFile) (hT : 0 < T)
    (hbig : T < f.data.length) :
    (split_large_file_events T f).head? = some (FileEvent.mkdirInput (stemOf f.name)) ∧
    (split_large_file_events T f)[1]? =
      some (FileEvent.copyInput (stemOf f.name ++ "/" ++ f.name) f.data) ∧
    (∀ e ∈ (split_large_file_events T f).drop 2, ∃ n df, e = FileEvent.writeOutput n df) ∧
    partWrites T f ≠ [] ∧
    (∀ w ∈ partWrites T f, w.1 ≠ stemOf f.name ++ "/" ++ f.name ∧
      ∀ en ∈ (DiskFile.entriesOf w.2).map Prod.fst,
        en ≠ stemOf f.name ++ "/" ++ f.name) := by
  have hne : f.data ≠ [] := by
    intro he
    rw [he] at hbig
    simp at hbig
  have hsplit : splitLoop T 1 f.data ≠ [] := by
    rw [splitLoop_eq, if_neg (by rintro (h1 | h1); exacts [hne h1, by omega])]
    simp
  refine ⟨rfl, by simp [split_large_file_events], ?_, ?_, ?_⟩
  · intro e he
    simp only [split_large_file_events, List.drop_succ_cons, List.drop_zero] at he
    obtain ⟨w, _, rfl⟩ := List.mem_map.mp he
    exact ⟨w.1, w.2, rfl⟩
  · rw [partWrites]
    intro hmap
    exact hsplit (List.map_eq_nil_iff.mp hmap)
  · intro w hw
    rw [partWrites] at hw
    obtain ⟨p, _, rfl⟩ := List.mem_map.mp hw
    constructor
    · exact partName_ne_copyPath f.name p.1
    · intro en hen
      simp only [DiskFile.entriesOf, List.map_cons, List.map_nil,
        List.mem_singleton] at hen
      subst hen
      exact copyPath_ne_name (stemOf f.name) f.name

theorem claim_C9_input_copy_witness :
    0 < 2 ∧ 2 < ([0, 1, 2, 3, 4] : Bytes).length ∧
    (split_large_file_events 2 ⟨"a.bin", [0, 1, 2, 3, 4]⟩).head? =
      some (FileEvent.mkdirInput "a") := by
  refine ⟨by decide, by decide, ?_⟩
  have h := (claim_C9_input_copy 2 ⟨"a.bin", [0, 1, 2, 3, 4]⟩ (by decide) (by decide)).1
  rw [show stemOf "a.bin" = "a" from by decide] at h
  exact h

/-- C3 is false as stated: uploading the two plain files `a.bin` and `a.txt`
(sizes 5, threshold 2) makes both oversized with the same stem `a`, so their
part archives collide on disk and in the top-level archive; the round trip
recovers only `a.txt` and loses `a.bin` entirely. -/
theorem claim_C3_roundtrip_counterexample :
    ¬ (recover (process 2 (filesOfTree (extractUploads
        [⟨"a.bin", [0, 1, 2, 3, 4], none⟩, ⟨"a.txt", [5, 6, 7, 8, 9], none⟩]).1))).Perm
      [("a.bin", [0, 1, 2, 3, 4]), ("a.txt", [5, 6, 7, 8, 9])] := by
  decide

/-- C3 amended: provided the threshold is positive, the walked files have
pairwise distinct names, and the names the run writes into the output
directory (rejoinable part archives, flat copies of normal files, and
independent archives) are pairwise distinct, the round trip — extract the
top-level archive, reassemble the Rejoinable parts per file, extract the
Independent archives — recovers exactly the input multiset of files. -/
theorem claim_C3_roundtrip (T : Nat) (files : List FSFile) (hT : 0 < T)
    (hnames : (files.map FSFile.name).Nodup)
    (hout : ((runRejoinable T files ++ runQueue T files) ++ runZips T files).Nodup) :
    (recover (process T files)).Perm (files.map (fun f => (f.name, f.data))) :=
  process_roundtrip T files hT hnames hout

theorem claim_C3_roundtrip_witness :
    0 < 2 ∧
    ((([⟨"a.bin", [0, 1, 2, 3, 4]⟩, ⟨"b.txt", [9, 9]⟩] : List FSFile)).map
      FSFile.name).Nodup ∧
    ((runRejoinable 2 [⟨"a.bin", [0, 1, 2, 3, 4]⟩, ⟨"b.txt", [9, 9]⟩] ++
      runQueue 2 [⟨"a.bin", [0, 1, 2, 3, 4]⟩, ⟨"b.txt", [9, 9]⟩]) ++
      runZips 2 [⟨"a.bin", [0, 1, 2, 3, 4]⟩, ⟨"b.txt", [9, 9]⟩]).Nodup ∧
    (recover (process 2 [⟨"a.bin", [0, 1, 2, 3, 4]⟩, ⟨"b.txt", [9, 9]⟩])).Perm
      (([⟨"a.bin", [0, 1, 2, 3, 4]⟩, ⟨"b.txt", [9, 9]⟩] : List FSFile).map
        (fun f => (f.name, f.data))) :=
  ⟨by decide, by decide, by decide,
   claim_C3_roundtrip 2 _ (by decide) (by decide) (by decide)⟩

/-- C4 is false as stated: the invalid `.zip` upload is caught and reported,
and the remaining uploads are processed — but the file is not excluded.
`os.remove` sits after `extractall` inside the `try` block, so the handler
skips it: `bad.zip` stays in the input tree and its bytes are packed into an
Independent archive of the produced output, from which they are recoverable. -/
theorem claim_C4_invalid_zip_counterexample :
    (extractUploads [⟨"bad.zip", [1, 2, 3], none⟩, ⟨"ok.txt", [4], none⟩]).2 =
      ["Invalid ZIP: bad.zip"] ∧
    ("bad.zip", ([1, 2, 3] : Bytes)) ∈
      (extractUploads [⟨"bad.zip", [1, 2, 3], none⟩, ⟨"ok.txt", [4], none⟩]).1 ∧
    ("Independent/independent_part1.zip",
      DiskFile.zip [("bad.zip", [1, 2, 3]), ("ok.txt", [4])]) ∈
      process 100 (filesOfTree
        (extractUploads [⟨"bad.zip", [1, 2, 3], none⟩, ⟨"ok.txt", [4], none⟩]).1) ∧
    ("bad.zip", ([1, 2, 3] : Bytes)) ∈
      recover (process 100 (filesOfTree
        (extractUploads [⟨"bad.zip", [1, 2, 3], none⟩, ⟨"ok.txt", [4], none⟩]).1)) := by
  refine ⟨by decide, by decide, by decide, by decide⟩

/-- C4 amended: every `.zip`-named upload whose bytes are not a valid archive
produces exactly one `Invalid ZIP` notice, in upload order, and processing of
the other uploads continues unchanged; the offending upload itself is kept:
its step writes the file into the input tree exactly like a plain upload and
only appends the error message, so the file is processed as a regular file
rather than excluded. -/
theorem claim_C4_invalid_zip (ups : List Upload) :
    ((extractUploads ups).2 =
      (ups.filter (fun u => endsWithZip u.name && u.parsedZip.isNone)).map
        (fun u => "Invalid ZIP: " ++ u.name)) ∧
    (∀ (acc : InputTree × List String) (u : Upload),
      endsWithZip u.name = true → u.parsedZip = none →
      uploadStep acc u =
        (treeStore acc.1 u.name u.content, acc.2 ++ ["Invalid ZIP: " ++ u.name])) := by
  refine ⟨extractUploads_errs ups, ?_⟩
  intro acc u hz hp
  simp [uploadStep, hz, hp]

theorem claim_C4_invalid_zip_witness :
    endsWithZip "bad.zip" = true ∧
    uploadStep ([], []) ⟨"bad.zip", [1, 2, 3], none⟩ =
      (treeStore [] "bad.zip" [1, 2, 3], [] ++ ["Invalid ZIP: bad.zip"]) :=
  ⟨by decide,
   (claim_C4_invalid_zip []).2 ([], []) ⟨"bad.zip", [1, 2, 3], none⟩ (by decide) rfl⟩
